import Mathlib

/-!
# Path normalisation (`resolve_path.cpp`)

A shallow embedding of the tokenizer (`split_path`), the classifier (`has_windows_drive`,
`is_root`, `is_valid_path`, `is_normalized_path`), the resolver (`normalize`) and the facade
(`normalize_path`, `convert_to_internal_path`), followed by theorems about them.

Conventions of the embedding:
* a `std::string` is the list of its characters (`Str`);
* a `std::vector<std::string>` is a `List Str`;
* `boost::optional<std::string>` is `Option Str`;
* a failing `assert` (and reading element 0 of an empty vector, which the asserts guard) is
  `Except.error Fault.assertion_failed`;
* `std::size_t parent_counter` is a `Nat`: it is bounded by the number of segments, which is
  far below `2^64`;
* the two filename predicates of `boost::filesystem` are not part of the sources and are taken
  as a parameter (`NameRules`).
-/

namespace NormalizePath

/-- A `std::string`, as the list of its characters. -/
abbrev Str := List Char

/-- The backslash character. -/
def backslash : Char := Char.ofNat 92

/-- The outcome of a run that stops at a failing `assert`. -/
inductive Fault where
  | assertion_failed
  deriving DecidableEq, Repr

deriving instance DecidableEq for Except

/-- The filename-rule provider: the predicates `boost::filesystem::portable_posix_name` and
`boost::filesystem::windows_name`, which the sources call but do not define. -/
structure NameRules where
  /-- Is the segment a legal POSIX-portable name. -/
  portable_posix_name : Str → Bool
  /-- Is the segment a legal Windows name. -/
  windows_name : Str → Bool

/-! ## Tokenizer -/

/-- The loop `for (; offset < path_size && (path[offset] == '/' || path[offset] == '\\'); ++offset);`
of `split_path`: the number of leading separator characters. -/
def leading_separators : Str → Nat
  | [] => 0
  | c :: cs => if c = '/' ∨ c = backslash then leading_separators cs + 1 else 0

/-- One `regex_search` with the expression `/+|\\+` (a run of slashes, or a run of
backslashes): the leftmost match, each alternative greedy.  The result is the text before the
match and the text after it; `none` when there is no match. -/
def regex_search : Str → Option (Str × Str)
  | [] => none
  | c :: cs =>
    if c = '/' then some ([], cs.dropWhile (fun d => d == '/'))
    else if c = backslash then some ([], cs.dropWhile (fun d => d == backslash))
    else
      match regex_search cs with
      | some (before, rest) => some (c :: before, rest)
      | none => none

/-- The tokens of `boost::sregex_token_iterator(first, last, split_reg, -1)`: at each step
the iterator searches from the end of the previous match; when a match is found it yields the
text before the match (empty or not), otherwise it yields the remaining text when that is not
empty, and ends.  Every match consumes at least one character, so `fuel` above the length of
the text is never exhausted. -/
def regex_tokens_fuel : Nat → Str → List Str
  | 0, _ => []
  | fuel + 1, s =>
    match regex_search s with
    | some (before, rest) => before :: regex_tokens_fuel fuel rest
    | none => if s = [] then [] else [s]

/-- The token sequence of a text. -/
def regex_tokens (s : Str) : List Str := regex_tokens_fuel (s.length + 1) s

/-- `split_path`: the root marker when the path starts with a separator, then the tokens of
the text after the leading separators. -/
def split_path (path : Str) : List Str :=
  let offset := leading_separators path
  (if 0 < offset then [['/']] else []) ++ regex_tokens (path.drop offset)

/-! ## Classifier -/

/-- `has_windows_drive`: two characters, an uppercase letter and a colon. -/
def has_windows_drive (first_subpath : Str) : Bool :=
  first_subpath.length == 2 &&
    (first_subpath.getD 0 ' ').isUpper &&
    first_subpath.getD 1 ' ' == ':'

/-- `is_root`. -/
def is_root (first_subpath : Str) (is_windows strict : Bool) : Bool :=
  let has_root := if !strict || !is_windows then first_subpath == ['/'] else false
  has_root || (is_windows && has_windows_drive first_subpath)

/-- The lambda of `is_valid_path`: the filename rule of the dialect. -/
def name_ok (rules : NameRules) (is_windows : Bool) (sub_path : Str) : Bool :=
  (!is_windows && rules.portable_posix_name sub_path) ||
    (is_windows && rules.windows_name sub_path)

/-- `is_valid_path`. -/
def is_valid_path (rules : NameRules) (path : Str) (is_windows : Bool) : Bool :=
  if !is_windows && path.contains backslash then false
  else
    match split_path path with
    | [] => false
    | first :: rest =>
      let has_root := is_root first is_windows false
      let offset := if has_root then 1 else 0
      ((first :: rest).drop offset).all (name_ok rules is_windows)

/-- `is_normalized_path`. -/
def is_normalized_path (rules : NameRules) (path : Str) (is_windows : Bool) : Bool :=
  if !is_valid_path rules path is_windows then false
  else
    match split_path path with
    | [] => false
    | first :: rest =>
      if !is_root first is_windows true then false
      else !(first :: rest).any (fun subpath => subpath == ['.'] || subpath == ['.', '.'])

/-! ## Resolver -/

/-- The body of the backward loop of `normalize`, on the pair
`(parent_counter, normalized_path_vec)`. -/
def scan_step (st : Nat × List Str) (x : Str) : Nat × List Str :=
  if x = ['.'] then st
  else if x = ['.', '.'] then (st.1 + 1, st.2)
  else if st.1 = 0 then (st.1, st.2 ++ [x])
  else (st.1 - 1, st.2)

/-- `normalize`: the loop runs from the last element down to element 1; the surviving
segments are written out in reverse order of their collection. -/
def normalize (subpaths : List Str) (is_windows : Bool) : Except Fault (Option Str) :=
  match subpaths with
  | [] => Except.error Fault.assertion_failed
  | first :: rest =>
    if is_root first is_windows true then
      let st := rest.reverse.foldl scan_step (0, [])
      if st.1 = 0 then
        let start : Str := (if is_windows then first else []) ++ ['/']
        let normalized_path :=
          st.2.reverse.foldl (fun acc subpath => acc ++ subpath ++ ['/']) start
        Except.ok (some (if st.2.isEmpty then normalized_path else normalized_path.dropLast))
      else Except.ok none
    else Except.error Fault.assertion_failed

/-! ## Facade -/

/-- `normalize_path`. -/
def normalize_path (rules : NameRules) (path : Str) (src_prj_dir : List Str) :
    Except Fault (Option Str) :=
  match src_prj_dir with
  | [] => Except.error Fault.assertion_failed
  | drive :: _ =>
    let is_windows := has_windows_drive drive
    if !is_root drive is_windows true then Except.error Fault.assertion_failed
    else
      match split_path path with
      | [] => Except.ok none
      | first :: rest =>
        if is_valid_path rules path is_windows then
          if !is_root first is_windows true then
            if is_windows && first == ['/'] then normalize (drive :: rest) is_windows
            else normalize (src_prj_dir ++ first :: rest) is_windows
          else normalize (first :: rest) is_windows
        else Except.ok none

/-- `convert_to_internal_path`. -/
def convert_to_internal_path (rules : NameRules) (normalized_path : Str) (is_windows : Bool) :
    Except Fault (List Str) :=
  if is_normalized_path rules normalized_path is_windows then
    Except.ok (split_path normalized_path)
  else Except.error Fault.assertion_failed

/-! ## A filename-rule provider -/

/-- Modelled from the spec: the predicate "is a legal POSIX-portable name" of the external
filename-rule provider, which is not in the sources.  Spec 4.2: the charset is letters, digits,
`.`, `_` and `-` (so `.` and `..` are permitted); a name has at least one character. -/
def portable_posix_name (name : Str) : Bool :=
  name != [] && name.all (fun c => c.isAlphanum || c == '.' || c == '_' || c == '-')

/-- Modelled from the spec: the predicate "is a legal Windows name" of the external
filename-rule provider, which is not in the sources.  Spec 4.2: it excludes the characters
`<>:"|?*` and control characters and disallows a trailing dot or space, `.` and `..` being
always permitted; a name has at least one character, and the two separators are excluded as
well. -/
def windows_name (name : Str) : Bool :=
  name != [] &&
    name.all (fun c => !(c.toNat < 32 || c ∈ ['<', '>', ':', '"', '|', '?', '*', '/', backslash])) &&
    ((name.getLast? != some '.' && name.getLast? != some ' ') ||
      name == ['.'] || name == ['.', '.'])

/-- The provider made of the two predicates above. -/
def portable_rules : NameRules := ⟨portable_posix_name, windows_name⟩

/-! ## Auxiliary notions used in the statements -/

/-- A text without separator characters. -/
def sep_free (s : Str) : Prop := ∀ c ∈ s, c ≠ '/' ∧ c ≠ backslash

instance (s : Str) : Decidable (sep_free s) := by
  unfold sep_free
  infer_instance

/-- The segments joined by single slashes. -/
def join_slash : List Str → Str
  | [] => []
  | [x] => x
  | x :: y :: rest => x ++ '/' :: join_slash (y :: rest)

/-- The serialization of a rooted segment sequence: the root designator (the drive marker
under the Windows dialect, nothing otherwise), a slash, and the segments after element 0
joined by slashes. -/
def serialize (is_windows : Bool) (subpaths : List Str) : Str :=
  (if is_windows then subpaths.headD [] else []) ++ '/' :: join_slash subpaths.tail

/-- The backward scan of `normalize` as a recursion on the segments: the pending-parent
counter and the surviving segments in path order. -/
def resolve_scan : List Str → Nat × List Str
  | [] => (0, [])
  | x :: l =>
    if x = ['.'] then resolve_scan l
    else if x = ['.', '.'] then ((resolve_scan l).1 + 1, (resolve_scan l).2)
    else if (resolve_scan l).1 = 0 then (0, x :: (resolve_scan l).2)
    else ((resolve_scan l).1 - 1, (resolve_scan l).2)

/-- An ordinary segment: neither `.` nor `..`. -/
def is_ordinary (x : Str) : Bool := x != ['.'] && x != ['.', '.']

/-- The segments joined by one separator character. -/
def join_with (sep : Char) : List Str → Str
  | [] => []
  | [x] => x
  | x :: y :: rest => x ++ sep :: join_with sep (y :: rest)

/-- The exchange of the two separator characters. -/
def swap_sep (c : Char) : Char :=
  if c = '/' then backslash else if c = backslash then '/' else c

/-- The forward stack algorithm in the words of the spec (4.3, 9): a left-to-right scan that
skips `.`, pushes each ordinary segment on a stack (top first), pops the stack on `..` and
fails when `..` is met with an empty stack; the survivors are the stack from bottom to top. -/
def forward_stack : List Str → List Str → Option (List Str)
  | [], stack => some stack.reverse
  | x :: l, stack =>
    if x = ['.'] then forward_stack l stack
    else if x = ['.', '.'] then
      match stack with
      | [] => none
      | _ :: below => forward_stack l below
    else forward_stack l (x :: stack)

/-! ## Tokenizer lemmas -/

theorem regex_search_sep_free {s : Str} (h : sep_free s) : regex_search s = none := by
  induction s with
  | nil => rfl
  | cons c cs ih =>
    have hc := h c (List.mem_cons_self _ _)
    have hcs : sep_free cs := fun d hd => h d (List.mem_cons_of_mem _ hd)
    simp [regex_search, hc.1, hc.2, ih hcs]

theorem regex_search_append_slash {t : Str} (r : Str) (h : sep_free t) :
    regex_search (t ++ '/' :: r) = some (t, r.dropWhile (fun d => d == '/')) := by
  induction t with
  | nil => simp [regex_search]
  | cons c cs ih =>
    have hc := h c (List.mem_cons_self _ _)
    have hcs : sep_free cs := fun d hd => h d (List.mem_cons_of_mem _ hd)
    simp [regex_search, hc.1, hc.2, ih hcs]

theorem regex_search_length {s before rest : Str}
    (h : regex_search s = some (before, rest)) : rest.length < s.length := by
  induction s generalizing before rest with
  | nil => simp [regex_search] at h
  | cons c cs ih =>
    unfold regex_search at h
    split_ifs at h with h1 h2
    · simp only [Option.some.injEq, Prod.mk.injEq] at h
      rw [← h.2]
      have := (List.dropWhile_sublist (fun d => d == '/') (l := cs)).length_le
      simp only [List.length_cons]; omega
    · simp only [Option.some.injEq, Prod.mk.injEq] at h
      rw [← h.2]
      have := (List.dropWhile_sublist (fun d => d == backslash) (l := cs)).length_le
      simp only [List.length_cons]; omega
    · cases hrec : regex_search cs with
      | none => simp [hrec] at h
      | some pr =>
        obtain ⟨b, r⟩ := pr
        simp only [hrec, Option.some.injEq, Prod.mk.injEq] at h
        have := ih hrec
        rw [← h.2]
        simp only [List.length_cons]; omega

theorem regex_tokens_fuel_stable :
    ∀ (n m : Nat) (s : Str), s.length < n → s.length < m →
      regex_tokens_fuel n s = regex_tokens_fuel m s := by
  intro n
  induction n with
  | zero => intro m s h; omega
  | succ n ih =>
    intro m s hn hm
    cases m with
    | zero => omega
    | succ m =>
      unfold regex_tokens_fuel
      cases hrec : regex_search s with
      | none => rfl
      | some pr =>
        obtain ⟨b, r⟩ := pr
        have := regex_search_length hrec
        simp only
        rw [ih m r (by omega) (by omega)]

/-- The unfolding of the token iterator: one search, then the tokens of the rest. -/
theorem regex_tokens_eq (s : Str) :
    regex_tokens s =
      match regex_search s with
      | some (before, rest) => before :: regex_tokens rest
      | none => if s = [] then [] else [s] := by
  unfold regex_tokens
  rw [regex_tokens_fuel]
  cases hrec : regex_search s with
  | none => rfl
  | some pr =>
    obtain ⟨b, r⟩ := pr
    have := regex_search_length hrec
    simp only
    rw [regex_tokens_fuel_stable s.length (r.length + 1) r (by omega) (by omega)]

theorem regex_search_before_sep_free {s before rest : Str}
    (h : regex_search s = some (before, rest)) : sep_free before := by
  induction s generalizing before rest with
  | nil => simp [regex_search] at h
  | cons c cs ih =>
    unfold regex_search at h
    split_ifs at h with h1 h2
    · simp only [Option.some.injEq, Prod.mk.injEq] at h
      rw [← h.1]; intro d hd; simp at hd
    · simp only [Option.some.injEq, Prod.mk.injEq] at h
      rw [← h.1]; intro d hd; simp at hd
    · cases hrec : regex_search cs with
      | none => simp [hrec] at h
      | some pr =>
        obtain ⟨b, r⟩ := pr
        simp only [hrec, Option.some.injEq, Prod.mk.injEq] at h
        rw [← h.1]
        intro d hd
        rcases List.mem_cons.1 hd with rfl | hd
        · exact ⟨h1, h2⟩
        · exact ih hrec d hd

theorem regex_search_none_sep_free {s : Str} (h : regex_search s = none) : sep_free s := by
  induction s with
  | nil => intro d hd; simp at hd
  | cons c cs ih =>
    unfold regex_search at h
    split_ifs at h with h1 h2
    cases hrec : regex_search cs with
    | some pr => obtain ⟨b, r⟩ := pr; simp [hrec] at h
    | none =>
      intro d hd
      rcases List.mem_cons.1 hd with rfl | hd
      · exact ⟨h1, h2⟩
      · exact ih hrec d hd

/-- No token contains a separator. -/
theorem regex_tokens_sep_free : ∀ (n : Nat) (s : Str), s.length < n →
    ∀ t ∈ regex_tokens s, sep_free t := by
  intro n
  induction n with
  | zero => intro s h; omega
  | succ n ih =>
    intro s hn t ht
    rw [regex_tokens_eq] at ht
    cases hrec : regex_search s with
    | none =>
      simp only [hrec] at ht
      split_ifs at ht with h0
      · simp at ht
      · simp only [List.mem_singleton] at ht
        rw [ht]; exact regex_search_none_sep_free hrec
    | some pr =>
      obtain ⟨b, r⟩ := pr
      simp only [hrec, List.mem_cons] at ht
      rcases ht with rfl | ht
      · exact regex_search_before_sep_free hrec
      · have := regex_search_length hrec
        exact ih r (by omega) t ht

theorem regex_tokens_nil : regex_tokens [] = [] := rfl

theorem regex_tokens_single {s : Str} (h : sep_free s) (hne : s ≠ []) :
    regex_tokens s = [s] := by
  rw [regex_tokens_eq, regex_search_sep_free h]
  simp [hne]

theorem regex_tokens_append_slash {t : Str} (r : Str) (h : sep_free t) :
    regex_tokens (t ++ '/' :: r) = t :: regex_tokens (r.dropWhile (fun d => d == '/')) := by
  rw [regex_tokens_eq, regex_search_append_slash r h]

theorem dropWhile_slash_cons_ne {c : Char} (cs : Str) (h : c ≠ '/') :
    (c :: cs).dropWhile (fun d => d == '/') = c :: cs := by
  rw [List.dropWhile_cons]; simp [h]

theorem dropWhile_slash_cons_eq (cs : Str) :
    ('/' :: cs).dropWhile (fun d => d == '/') = cs.dropWhile (fun d => d == '/') := by
  rw [List.dropWhile_cons]; simp

theorem drop_leading_separators {s : Str} (h : backslash ∉ s) :
    s.drop (leading_separators s) = s.dropWhile (fun d => d == '/') := by
  induction s with
  | nil => rfl
  | cons c cs ih =>
    have hc : c ≠ backslash := fun e => h (e ▸ List.mem_cons_self _ _)
    have hcs : backslash ∉ cs := fun e => h (List.mem_cons_of_mem _ e)
    by_cases h1 : c = '/'
    · subst h1
      rw [dropWhile_slash_cons_eq]
      simp [leading_separators, ih hcs]
    · rw [dropWhile_slash_cons_ne _ h1]
      simp [leading_separators, h1, hc]

theorem sep_free_no_backslash {s : Str} (h : sep_free s) : backslash ∉ s :=
  fun hm => (h _ hm).2 rfl

theorem join_slash_no_backslash : ∀ (segs : List Str), (∀ t ∈ segs, sep_free t) →
    backslash ∉ join_slash segs
  | [], _ => by simp [join_slash]
  | [x], h => by
    simpa [join_slash] using sep_free_no_backslash (h x (by simp))
  | x :: y :: rest, h => by
    have hx := sep_free_no_backslash (h x (by simp))
    have ih := join_slash_no_backslash (y :: rest) (fun t ht => h t (List.mem_cons_of_mem _ ht))
    simp only [join_slash, List.mem_append, List.mem_cons, not_or]
    refine ⟨hx, ?_, ih⟩
    decide

/-- The tokens of slash-joined separator-free segments are the non-empty segments. -/
theorem regex_tokens_join_slash : ∀ (segs : List Str), (∀ t ∈ segs, sep_free t) →
    regex_tokens ((join_slash segs).dropWhile (fun d => d == '/')) =
      segs.filter (fun t => t != [])
  | [], _ => by simp [join_slash, regex_tokens_nil]
  | [x], h => by
    have hx := h x (by simp)
    cases x with
    | nil => simp [join_slash, regex_tokens_nil]
    | cons c cs =>
      have hc := (hx c (List.mem_cons_self _ _)).1
      simp only [join_slash]
      rw [dropWhile_slash_cons_ne _ hc, regex_tokens_single hx (by simp)]
      simp
  | x :: y :: rest, h => by
    have hx := h x (by simp)
    have ih := regex_tokens_join_slash (y :: rest) (fun t ht => h t (List.mem_cons_of_mem _ ht))
    cases x with
    | nil =>
      simp only [join_slash, List.nil_append]
      rw [dropWhile_slash_cons_eq, ih]
      simp
    | cons c cs =>
      have hc := (hx c (List.mem_cons_self _ _)).1
      have e : (join_slash ((c :: cs) :: y :: rest)).dropWhile (fun d => d == '/') =
          (c :: cs) ++ '/' :: join_slash (y :: rest) := by
        simp only [join_slash, List.cons_append]
        rw [dropWhile_slash_cons_ne _ hc]
      rw [e, regex_tokens_append_slash _ hx, ih]
      simp

theorem split_path_serialize_posix (segs : List Str) (h : ∀ t ∈ segs, sep_free t) :
    split_path ('/' :: join_slash segs) = ['/'] :: segs.filter (fun t => t != []) := by
  have hb := join_slash_no_backslash segs h
  unfold split_path
  simp only [leading_separators, true_or, if_true, Nat.succ_pos, List.drop_succ_cons]
  rw [drop_leading_separators hb, regex_tokens_join_slash segs h]
  simp

theorem split_path_serialize_windows (d : Str) (segs : List Str) (hd : sep_free d)
    (hne : d ≠ []) (h : ∀ t ∈ segs, sep_free t) :
    split_path (d ++ '/' :: join_slash segs) = d :: segs.filter (fun t => t != []) := by
  cases d with
  | nil => exact absurd rfl hne
  | cons c cs =>
    have hc := hd c (List.mem_cons_self _ _)
    unfold split_path
    simp only [List.cons_append, leading_separators, hc.1, hc.2, or_self, if_false,
      Nat.lt_irrefl, List.drop_zero, List.nil_append]
    rw [← List.cons_append, regex_tokens_append_slash _ hd, regex_tokens_join_slash segs h]

/-! ## Resolver lemmas -/

theorem foldl_scan_step (rest : List Str) :
    rest.reverse.foldl scan_step (0, []) =
      ((resolve_scan rest).1, (resolve_scan rest).2.reverse) := by
  induction rest with
  | nil => rfl
  | cons x l ih =>
    rw [List.reverse_cons, List.foldl_append, ih]
    simp only [List.foldl_cons, List.foldl_nil, scan_step, resolve_scan]
    split_ifs <;> simp_all

theorem write_out (start : Str) (keep : List Str) :
    (if keep.isEmpty then keep.foldl (fun acc subpath => acc ++ subpath ++ ['/']) start
      else (keep.foldl (fun acc subpath => acc ++ subpath ++ ['/']) start).dropLast) =
      start ++ join_slash keep := by
  induction keep generalizing start with
  | nil => simp [join_slash]
  | cons x l ih =>
    cases l with
    | nil => simp [join_slash, List.dropLast_concat]
    | cons y l =>
      have := ih (start ++ x ++ ['/'])
      simp only [List.isEmpty_cons, Bool.false_eq_true, if_false] at this
      simp only [List.isEmpty_cons, Bool.false_eq_true, if_false, List.foldl_cons] at *
      rw [this]
      simp [join_slash]

/-- The resolver in closed form: it fails exactly when the scan ends with a pending parent,
and otherwise writes the root designator, a slash and the surviving segments. -/
theorem normalize_eq (first : Str) (rest : List Str) (w : Bool)
    (h : is_root first w true = true) :
    normalize (first :: rest) w =
      if (resolve_scan rest).1 = 0 then
        Except.ok (some (serialize w (first :: (resolve_scan rest).2)))
      else Except.ok none := by
  unfold normalize
  simp only [h, if_true, foldl_scan_step, List.reverse_reverse]
  by_cases h0 : (resolve_scan rest).1 = 0
  · simp only [h0, if_true]
    have e : (resolve_scan rest).2.reverse.isEmpty = (resolve_scan rest).2.isEmpty := by
      cases (resolve_scan rest).2 <;> simp
    rw [e, write_out]
    simp [serialize]
  · simp [h0]

theorem resolve_scan_mem (l : List Str) :
    ∀ t ∈ (resolve_scan l).2, t ∈ l ∧ t ≠ ['.'] ∧ t ≠ ['.', '.'] := by
  induction l with
  | nil => intro t ht; simp [resolve_scan] at ht
  | cons x l ih =>
    intro t ht
    unfold resolve_scan at ht
    split_ifs at ht with h1 h2 h3
    · exact ⟨List.mem_cons_of_mem _ (ih t ht).1, (ih t ht).2⟩
    · exact ⟨List.mem_cons_of_mem _ (ih t ht).1, (ih t ht).2⟩
    · rcases List.mem_cons.1 ht with rfl | ht
      · exact ⟨List.mem_cons_self _ _, h1, h2⟩
      · exact ⟨List.mem_cons_of_mem _ (ih t ht).1, (ih t ht).2⟩
    · exact ⟨List.mem_cons_of_mem _ (ih t ht).1, (ih t ht).2⟩

theorem resolve_scan_no_parent (l : List Str) (h : ∀ t ∈ l, t ≠ ['.', '.']) :
    resolve_scan l = (0, l.filter (fun t => t != ['.'])) := by
  induction l with
  | nil => rfl
  | cons x l ih =>
    have hx := h x (List.mem_cons_self _ _)
    have ih := ih (fun t ht => h t (List.mem_cons_of_mem _ ht))
    unfold resolve_scan
    by_cases h1 : x = ['.']
    · simp [h1, ih]
    · simp [h1, hx, ih]

theorem resolve_scan_ordinary (l : List Str)
    (h : ∀ t ∈ l, t ≠ ['.'] ∧ t ≠ ['.', '.']) : resolve_scan l = (0, l) := by
  rw [resolve_scan_no_parent l (fun t ht => (h t ht).2)]
  congr 1
  rw [List.filter_eq_self]
  intro t ht
  simpa using (h t ht).1

theorem resolve_scan_append_parent (l : List Str)
    (h : ∀ t ∈ l, t ≠ ['.'] ∧ t ≠ ['.', '.']) :
    resolve_scan (l ++ [['.', '.']]) = if l = [] then (1, []) else (0, l.dropLast) := by
  induction l with
  | nil => simp [resolve_scan]
  | cons x l ih =>
    have hx := h x (List.mem_cons_self _ _)
    have ih := ih (fun t ht => h t (List.mem_cons_of_mem _ ht))
    rw [List.cons_append, resolve_scan, ih]
    cases l with
    | nil => simp [hx.1, hx.2]
    | cons y l => simp [hx.1, hx.2, List.dropLast]

/-- Every prefix has at most as many parents in excess as the scan leaves pending. -/
theorem resolve_scan_bound (l : List Str) (n : Nat) :
    (l.take n).count ['.', '.'] ≤
      (resolve_scan l).1 + ((l.take n).filter is_ordinary).length := by
  induction l generalizing n with
  | nil => simp
  | cons x l ih =>
    cases n with
    | zero => simp
    | succ n =>
      have := ih n
      rw [List.take_succ_cons, resolve_scan]
      by_cases h1 : x = ['.']
      · subst h1
        simp only [if_true]
        rw [List.count_cons_of_ne (by decide), List.filter_cons_of_neg (by decide)]
        exact this
      · by_cases h2 : x = ['.', '.']
        · subst h2
          simp only [if_true]
          rw [List.count_cons_self, List.filter_cons_of_neg (by decide)]
          simp only [show ¬ (['.', '.'] = ['.']) by decide, if_false]
          omega
        · have ho : is_ordinary x = true := by simp [is_ordinary, h1, h2]
          rw [List.count_cons_of_ne (Ne.symm h2), List.filter_cons_of_pos ho]
          simp only [h1, h2, if_false, List.length_cons]
          split_ifs <;> simp only <;> omega

/-- Some prefix has exactly as many parents in excess as the scan leaves pending. -/
theorem resolve_scan_attained (l : List Str) :
    ∃ n, (l.take n).count ['.', '.'] =
      (resolve_scan l).1 + ((l.take n).filter is_ordinary).length := by
  induction l with
  | nil => exact ⟨0, by simp [resolve_scan]⟩
  | cons x l ih =>
    obtain ⟨n, hn⟩ := ih
    rw [resolve_scan]
    by_cases h1 : x = ['.']
    · subst h1
      refine ⟨n + 1, ?_⟩
      rw [List.take_succ_cons, List.count_cons_of_ne (by decide),
        List.filter_cons_of_neg (by decide)]
      simpa using hn
    · by_cases h2 : x = ['.', '.']
      · subst h2
        refine ⟨n + 1, ?_⟩
        rw [List.take_succ_cons, List.count_cons_self, List.filter_cons_of_neg (by decide)]
        simp only [show ¬ (['.', '.'] = ['.']) by decide, if_false, if_true]
        omega
      · have ho : is_ordinary x = true := by simp [is_ordinary, h1, h2]
        by_cases h3 : (resolve_scan l).1 = 0
        · exact ⟨0, by simp [h1, h2, h3]⟩
        · refine ⟨n + 1, ?_⟩
          rw [List.take_succ_cons, List.count_cons_of_ne (Ne.symm h2),
            List.filter_cons_of_pos ho]
          simp only [h1, h2, h3, if_false, List.length_cons]
          omega

/-! ## Classifier and facade lemmas -/

theorem has_windows_drive_form {d : Str} (h : has_windows_drive d = true) :
    ∃ a : Char, d = [a, ':'] ∧ a.isUpper = true := by
  match d, h with
  | [a, b], h =>
    simp only [has_windows_drive, List.length_cons, List.length_nil, List.getD_cons_zero,
      List.getD_cons_succ, Bool.and_eq_true, beq_iff_eq] at h
    exact ⟨a, by rw [h.2], h.1.2⟩
  | [], h => simp [has_windows_drive] at h
  | [_], h => simp [has_windows_drive] at h
  | _ :: _ :: _ :: _, h => simp [has_windows_drive] at h

theorem drive_sep_free {d : Str} (h : has_windows_drive d = true) : sep_free d ∧ d ≠ [] := by
  obtain ⟨a, rfl, ha⟩ := has_windows_drive_form h
  refine ⟨?_, by simp⟩
  intro c hc
  simp only [List.mem_cons, List.mem_singleton, List.not_mem_nil, or_false] at hc
  rcases hc with rfl | rfl
  · constructor
    · rintro rfl; exact absurd ha (by decide)
    · rintro rfl; exact absurd ha (by decide)
  · exact ⟨by decide, by decide⟩

theorem is_root_posix {x : Str} {strict : Bool} (h : is_root x false strict = true) :
    x = ['/'] := by
  simpa [is_root] using h

theorem is_root_windows_strict {x : Str} (h : is_root x true true = true) :
    has_windows_drive x = true := by
  simpa [is_root] using h

/-- A strict root fixes the dialect that `normalize_path` derives from it. -/
theorem has_windows_drive_of_root {x : Str} {w : Bool} (h : is_root x w true = true) :
    has_windows_drive x = w := by
  cases w with
  | true => exact is_root_windows_strict h
  | false => rw [is_root_posix h]; rfl

theorem is_root_strict_weaken {x : Str} {w : Bool} (h : is_root x w true = true) :
    is_root x w false = true := by
  cases w with
  | true => simp [is_root, is_root_windows_strict h]
  | false => simpa [is_root] using h

theorem split_path_sep_free {p first : Str} {rest : List Str}
    (h : split_path p = first :: rest) :
    (first = ['/'] ∨ sep_free first) ∧ ∀ t ∈ rest, sep_free t := by
  have htok : ∀ t ∈ regex_tokens (p.drop (leading_separators p)), sep_free t :=
    regex_tokens_sep_free _ _ (Nat.lt_succ_self _)
  unfold split_path at h
  simp only at h
  split_ifs at h with h0
  · simp only [List.singleton_append, List.cons.injEq] at h
    exact ⟨Or.inl h.1.symm, fun t ht => htok t (h.2 ▸ ht)⟩
  · simp only [List.nil_append] at h
    rw [h] at htok
    exact ⟨Or.inr (htok first (List.mem_cons_self _ _)),
      fun t ht => htok t (List.mem_cons_of_mem _ ht)⟩

/-- What a valid path provides: a non-empty segment sequence whose segments after a root all
satisfy the filename rule of the dialect, and no backslash under the POSIX dialect. -/
theorem is_valid_path_cases {rules : NameRules} {p : Str} {w : Bool}
    (h : is_valid_path rules p w = true) :
    ∃ first rest, split_path p = first :: rest ∧
      (∀ t ∈ rest, name_ok rules w t = true) ∧
      (is_root first w false = false → name_ok rules w first = true) ∧
      (w = false → backslash ∉ p) := by
  unfold is_valid_path at h
  split_ifs at h with h0
  cases hs : split_path p with
  | nil => simp [hs] at h
  | cons first rest =>
    refine ⟨first, rest, rfl, ?_, ?_, ?_⟩
    · simp only [hs] at h
      by_cases hr : is_root first w false = true
      · simpa [hr] using h
      · simp [hr] at h
        simpa using h.2
    · intro hr
      simp [hs, hr] at h
      exact h.1
    · intro hw
      subst hw
      simpa using h0

/-- What `is_normalized_path` provides. -/
theorem is_normalized_path_cases {rules : NameRules} {p : Str} {w : Bool}
    (h : is_normalized_path rules p w = true) :
    is_valid_path rules p w = true ∧
    ∃ first rest, split_path p = first :: rest ∧ is_root first w true = true ∧
      (∀ t ∈ rest, name_ok rules w t = true ∧ t ≠ ['.'] ∧ t ≠ ['.', '.'] ∧ sep_free t) := by
  unfold is_normalized_path at h
  split_ifs at h with h0
  have hv : is_valid_path rules p w = true := by simpa using h0
  obtain ⟨first, rest, hs, hrest, -, -⟩ := is_valid_path_cases hv
  refine ⟨hv, first, rest, hs, ?_, ?_⟩
  · simp only [hs] at h
    split_ifs at h with h1
    simpa using h1
  · intro t ht
    simp only [hs] at h
    split_ifs at h with h1
    simp only [List.any_cons, Bool.not_eq_true', Bool.or_eq_false_iff, List.any_eq_false,
      beq_iff_eq] at h
    have := h.2 t ht
    simp only [Bool.or_eq_true, beq_iff_eq, not_or] at this
    exact ⟨hrest t ht, this.1, this.2, (split_path_sep_free hs).2 t ht⟩

/-- What a base directory obtained by `convert_to_internal_path` provides. -/
theorem convert_cases {rules : NameRules} {q : Str} {w : Bool} {base : List Str}
    (h : convert_to_internal_path rules q w = Except.ok base) :
    ∃ b0 bs, base = b0 :: bs ∧ split_path q = b0 :: bs ∧ is_root b0 w true = true ∧
      has_windows_drive b0 = w ∧ is_valid_path rules q w = true ∧
      (∀ t ∈ bs, name_ok rules w t = true ∧ t ≠ ['.'] ∧ t ≠ ['.', '.'] ∧ sep_free t) := by
  unfold convert_to_internal_path at h
  split_ifs at h with h0
  simp only [Except.ok.injEq] at h
  obtain ⟨hv, b0, bs, hs, hr, hall⟩ := is_normalized_path_cases h0
  exact ⟨b0, bs, by rw [← h, hs], hs, hr, has_windows_drive_of_root hr, hv, hall⟩

/-- The facade once its two assertions hold. -/
theorem normalize_path_eq (rules : NameRules) (raw b0 : Str) (bs : List Str)
    (h : is_root b0 (has_windows_drive b0) true = true) :
    normalize_path rules raw (b0 :: bs) =
      match split_path raw with
      | [] => Except.ok none
      | first :: rest =>
        if is_valid_path rules raw (has_windows_drive b0) then
          if !is_root first (has_windows_drive b0) true then
            if has_windows_drive b0 && first == ['/'] then
              normalize (b0 :: rest) (has_windows_drive b0)
            else normalize (b0 :: bs ++ first :: rest) (has_windows_drive b0)
          else normalize (first :: rest) (has_windows_drive b0)
        else Except.ok none := by
  unfold normalize_path
  simp [h]

theorem leading_separators_all {raw : Str} (h : ∀ c ∈ raw, c = '/' ∨ c = backslash) :
    leading_separators raw = raw.length := by
  induction raw with
  | nil => rfl
  | cons c cs ih =>
    have hc := h c (List.mem_cons_self _ _)
    simp [leading_separators, hc, ih (fun d hd => h d (List.mem_cons_of_mem _ hd))]

/-- A non-empty text made of separators only is tokenized to the root marker alone. -/
theorem split_path_separators {raw : Str} (hne : raw ≠ [])
    (h : ∀ c ∈ raw, c = '/' ∨ c = backslash) : split_path raw = [['/']] := by
  unfold split_path
  rw [leading_separators_all h]
  have : 0 < raw.length := List.length_pos.2 hne
  simp [this, regex_tokens_nil]

/-! ## The shape of the facade's results -/

theorem dropWhile_slash_head (l : Str) :
    ∀ cs, l.dropWhile (fun d => d == '/') ≠ '/' :: cs := by
  induction l with
  | nil => intro cs; simp
  | cons c l ih =>
    intro cs
    by_cases hc : c = '/'
    · subst hc
      rw [dropWhile_slash_cons_eq]
      exact ih cs
    · rw [dropWhile_slash_cons_ne _ hc]
      intro e
      exact hc (List.cons.inj e).1

theorem regex_search_no_backslash {s before rest : Str}
    (h : regex_search s = some (before, rest)) (hnb : backslash ∉ s) :
    backslash ∉ rest ∧ (∀ cs, rest ≠ '/' :: cs) ∧ ((∀ cs, s ≠ '/' :: cs) → before ≠ []) := by
  induction s generalizing before rest with
  | nil => simp [regex_search] at h
  | cons c cs ih =>
    have hc : c ≠ backslash := fun e => hnb (e ▸ List.mem_cons_self _ _)
    have hcs : backslash ∉ cs := fun e => hnb (List.mem_cons_of_mem _ e)
    unfold regex_search at h
    split_ifs at h with h1
    · simp only [Option.some.injEq, Prod.mk.injEq] at h
      rw [← h.2]
      refine ⟨fun hm => hcs ((List.dropWhile_sublist _).subset hm),
        dropWhile_slash_head cs, fun hh => absurd (h1 ▸ rfl) (hh cs)⟩
    · cases hrec : regex_search cs with
      | none => simp [hrec] at h
      | some pr =>
        obtain ⟨b, r⟩ := pr
        simp only [hrec, Option.some.injEq, Prod.mk.injEq] at h
        obtain ⟨i1, i2, -⟩ := ih hrec hcs
        rw [← h.1, ← h.2]
        exact ⟨i1, i2, fun _ => by simp⟩

theorem regex_tokens_nonempty : ∀ (n : Nat) (s : Str), s.length < n → backslash ∉ s →
    (∀ cs, s ≠ '/' :: cs) → ∀ t ∈ regex_tokens s, t ≠ [] := by
  intro n
  induction n with
  | zero => intro s h; omega
  | succ n ih =>
    intro s hn hnb hhead t ht
    rw [regex_tokens_eq] at ht
    cases hrec : regex_search s with
    | none =>
      simp only [hrec] at ht
      split_ifs at ht with h0
      · simp at ht
      · simp only [List.mem_singleton] at ht
        rw [ht]; exact h0
    | some pr =>
      obtain ⟨b, r⟩ := pr
      simp only [hrec, List.mem_cons] at ht
      obtain ⟨i1, i2, i3⟩ := regex_search_no_backslash hrec hnb
      rcases ht with rfl | ht
      · exact i3 hhead
      · have := regex_search_length hrec
        exact ih r (by omega) i1 i2 t ht

/-- Without a backslash in the text, no segment is empty. -/
theorem split_path_nonempty {p : Str} (hnb : backslash ∉ p) :
    ∀ t ∈ split_path p, t ≠ [] := by
  intro t ht
  unfold split_path at ht
  simp only [List.mem_append] at ht
  rcases ht with ht | ht
  · split_ifs at ht
    · simp only [List.mem_singleton] at ht
      rw [ht]; simp
    · simp at ht
  · rw [drop_leading_separators hnb] at ht
    exact regex_tokens_nonempty _ _ (Nat.lt_succ_self _)
      (fun hm => hnb ((List.dropWhile_sublist _).subset hm)) (dropWhile_slash_head p) t ht

/-- The segments of a serialization are its root and its non-empty segments. -/
theorem split_path_serialize {r0 : Str} {w : Bool} (keep : List Str)
    (hroot : is_root r0 w true = true) (h : ∀ t ∈ keep, sep_free t) :
    split_path (serialize w (r0 :: keep)) = r0 :: keep.filter (fun t => t != []) := by
  cases w with
  | false =>
    rw [is_root_posix hroot]
    exact split_path_serialize_posix keep h
  | true =>
    have hd := drive_sep_free (is_root_windows_strict hroot)
    exact split_path_serialize_windows r0 keep hd.1 hd.2 h

theorem serialize_no_backslash {r0 : Str} (keep : List Str) (h : ∀ t ∈ keep, sep_free t) :
    backslash ∉ serialize false (r0 :: keep) := by
  have := join_slash_no_backslash keep h
  simp only [serialize, Bool.false_eq_true, if_false, List.nil_append, List.tail_cons,
    List.mem_cons, not_or]
  exact ⟨by decide, this⟩

theorem root_not_dot {r0 : Str} {w : Bool} (hroot : is_root r0 w true = true) :
    r0 ≠ ['.'] ∧ r0 ≠ ['.', '.'] := by
  cases w with
  | false => rw [is_root_posix hroot]; exact ⟨by decide, by decide⟩
  | true =>
    obtain ⟨a, rfl, -⟩ := has_windows_drive_form (is_root_windows_strict hroot)
    exact ⟨by simp, by simp⟩

/-- A successful result of the resolver is the serialization of the surviving segments, which
are segments of the input other than `.` and `..`. -/
theorem normalize_some {r0 s : Str} {segs : List Str} {w : Bool}
    (hroot : is_root r0 w true = true)
    (h : normalize (r0 :: segs) w = Except.ok (some s)) :
    s = serialize w (r0 :: (resolve_scan segs).2) := by
  rw [normalize_eq r0 segs w hroot] at h
  split_ifs at h with h0
  · simpa using h.symm
  · simp at h

/-- The facade either gives no value or hands to the resolver a strictly rooted sequence whose
other segments satisfy the filename rule, hold no separator and, under the POSIX dialect, are
not empty. -/
theorem normalize_path_cases {rules : NameRules} {w : Bool} {q : Str} (raw : Str)
    {base : List Str} (hb : convert_to_internal_path rules q w = Except.ok base) :
    normalize_path rules raw base = Except.ok none ∨
    ∃ r0 segs, normalize_path rules raw base = normalize (r0 :: segs) w ∧
      is_root r0 w true = true ∧
      ∀ t ∈ segs, name_ok rules w t = true ∧ sep_free t ∧ (w = false → t ≠ []) := by
  obtain ⟨b0, bs, rfl, hsq, hroot, hw, hvq, hall⟩ := convert_cases hb
  subst hw
  have hbs : ∀ t ∈ bs, name_ok rules (has_windows_drive b0) t = true ∧ sep_free t ∧
      (has_windows_drive b0 = false → t ≠ []) := by
    intro t ht
    refine ⟨(hall t ht).1, (hall t ht).2.2.2, fun hw => ?_⟩
    obtain ⟨-, -, -, -, -, hnb⟩ := is_valid_path_cases hvq
    exact split_path_nonempty (hnb hw) t (hsq ▸ List.mem_cons_of_mem _ ht)
  rw [normalize_path_eq rules raw b0 bs hroot]
  cases hs : split_path raw with
  | nil => exact Or.inl rfl
  | cons first rest =>
    by_cases hv : is_valid_path rules raw (has_windows_drive b0) = true
    · obtain ⟨f2, r2, hs2, hrest, hfirst, hnb⟩ := is_valid_path_cases hv
      rw [hs] at hs2
      obtain ⟨rfl, rfl⟩ := List.cons.inj hs2
      have hsf := split_path_sep_free hs
      have hne : has_windows_drive b0 = false → ∀ t ∈ first :: rest, t ≠ [] :=
        fun hw t ht => split_path_nonempty (hnb hw) t (hs ▸ ht)
      have hrest2 : ∀ t ∈ rest, name_ok rules (has_windows_drive b0) t = true ∧ sep_free t ∧
          (has_windows_drive b0 = false → t ≠ []) :=
        fun t ht => ⟨hrest t ht, hsf.2 t ht, fun hw => hne hw t (List.mem_cons_of_mem _ ht)⟩
      right
      simp only [hv, if_true]
      by_cases hr : is_root first (has_windows_drive b0) true = true
      · exact ⟨first, rest, by simp [hr], hr, hrest2⟩
      · simp only [Bool.not_eq_true] at hr
        by_cases hsub : (has_windows_drive b0 && first == ['/']) = true
        · exact ⟨b0, rest, by simp [hr, hsub], hroot, hrest2⟩
        · refine ⟨b0, bs ++ first :: rest, by simp [hr, hsub], hroot, ?_⟩
          have hloose : is_root first (has_windows_drive b0) false = false := by
            cases hw : has_windows_drive b0 with
            | false => rw [hw] at hr; simpa [is_root] using hr
            | true =>
              rw [hw] at hr hsub
              simp only [Bool.true_and, beq_iff_eq] at hsub
              simp only [is_root, Bool.not_true, Bool.or_false, Bool.not_false,
                Bool.false_eq_true, if_false, Bool.true_and, Bool.false_or] at hr
              simp [is_root, hr, hsub]
          have hfsf : sep_free first := by
            rcases hsf.1 with e | e
            · rw [e] at hloose
              exact absurd hloose (by cases has_windows_drive b0 <;> decide)
            · exact e
          intro t ht
          rcases List.mem_append.1 ht with ht | ht
          · exact hbs t ht
          · rcases List.mem_cons.1 ht with rfl | ht
            · exact ⟨hfirst hloose, hfsf, fun hw => hne hw _ (List.mem_cons_self _ _)⟩
            · exact hrest2 t ht
    · left
      simp [hv]

/-- The shape of every successful result of the facade. -/
theorem normalize_path_some {rules : NameRules} {w : Bool} {q raw s : Str} {base : List Str}
    (hb : convert_to_internal_path rules q w = Except.ok base)
    (hx : normalize_path rules raw base = Except.ok (some s)) :
    ∃ r0 keep, s = serialize w (r0 :: keep) ∧ is_root r0 w true = true ∧
      ∀ t ∈ keep, name_ok rules w t = true ∧ sep_free t ∧ (w = false → t ≠ []) ∧
        t ≠ ['.'] ∧ t ≠ ['.', '.'] := by
  rcases normalize_path_cases raw hb with h | ⟨r0, segs, h, hroot, hsegs⟩
  · rw [h] at hx; simp at hx
  · rw [h] at hx
    refine ⟨r0, (resolve_scan segs).2, normalize_some hroot hx, hroot, ?_⟩
    intro t ht
    have hm := resolve_scan_mem segs t ht
    exact ⟨(hsegs t hm.1).1, (hsegs t hm.1).2.1, (hsegs t hm.1).2.2, hm.2.1, hm.2.2⟩

/-- A text whose segment sequence is a strict root followed by legal names other than `.` and
`..` is accepted by `is_normalized_path`. -/
theorem is_normalized_path_intro {rules : NameRules} {w : Bool} {s r0 : Str} {keep : List Str}
    (hs : split_path s = r0 :: keep) (hroot : is_root r0 w true = true)
    (hnb : w = false → backslash ∉ s)
    (hkeep : ∀ t ∈ keep, name_ok rules w t = true ∧ t ≠ ['.'] ∧ t ≠ ['.', '.']) :
    is_normalized_path rules s w = true := by
  have hv : is_valid_path rules s w = true := by
    unfold is_valid_path
    have h1 : (!w && s.contains backslash) = false := by
      cases w with
      | true => rfl
      | false => simpa using hnb rfl
    simp only [h1, hs, is_root_strict_weaken hroot, Bool.false_eq_true, if_false, if_true,
      List.drop_succ_cons, List.drop_zero, List.all_eq_true]
    exact fun t ht => (hkeep t ht).1
  unfold is_normalized_path
  simp only [hv, hs, hroot, Bool.not_true, Bool.false_eq_true, if_false, List.any_cons,
    Bool.not_eq_true', Bool.or_eq_false_iff, List.any_eq_false]
  have hr := root_not_dot hroot
  refine ⟨by simp [hr.1, hr.2], ?_⟩
  intro t ht
  simp [(hkeep t ht).2.1, (hkeep t ht).2.2]

/-- The facade on a path accepted by `is_normalized_path`: the serialization of its
segment sequence. -/
theorem normalize_path_normalized {rules : NameRules} {w : Bool} {p q : Str}
    {base : List Str}
    (hp : is_normalized_path rules p w = true)
    (hb : convert_to_internal_path rules q w = Except.ok base) :
    normalize_path rules p base = Except.ok (some (serialize w (split_path p))) := by
  obtain ⟨b0, bs, rfl, -, hroot, hw, -, -⟩ := convert_cases hb
  obtain ⟨hv, first, rest, hs, hr, hall⟩ := is_normalized_path_cases hp
  subst hw
  rw [normalize_path_eq rules p b0 bs hroot, hs]
  simp only [hv, hr, if_true, Bool.not_true, Bool.false_eq_true, if_false]
  rw [normalize_eq first rest _ hr,
    resolve_scan_ordinary rest (fun t ht => ⟨(hall t ht).2.1, (hall t ht).2.2.1⟩)]
  simp

/-! ## Placement of the root marker -/

theorem root_marker_not_sep_free : ¬ sep_free ['/'] :=
  fun h => (h '/' (List.mem_cons_self _ _)).1 rfl

theorem regex_tokens_no_root (s : Str) : ['/'] ∉ regex_tokens s :=
  fun hm => root_marker_not_sep_free (regex_tokens_sep_free _ s (Nat.lt_succ_self _) _ hm)

theorem regex_tokens_ne_nil {s : Str} (h : s ≠ []) : regex_tokens s ≠ [] := by
  rw [regex_tokens_eq]
  cases regex_search s with
  | none => simp [h]
  | some pr => obtain ⟨b, r⟩ := pr; simp

/-- The segment sequence of a text that starts with a separator. -/
theorem split_path_of_sep {c : Char} (cs : Str) (hc : c = '/' ∨ c = backslash) :
    split_path (c :: cs) =
      ['/'] :: regex_tokens ((c :: cs).drop (leading_separators (c :: cs))) := by
  unfold split_path
  simp [leading_separators, hc]

/-- The segment sequence of a text that does not start with a separator. -/
theorem split_path_of_not_sep {c : Char} (cs : Str) (hc : ¬ (c = '/' ∨ c = backslash)) :
    split_path (c :: cs) = regex_tokens (c :: cs) := by
  unfold split_path
  simp [leading_separators, hc]

theorem split_path_head_root_iff (s : Str) :
    (split_path s).head? = some ['/'] ↔ ∃ c cs, s = c :: cs ∧ (c = '/' ∨ c = backslash) := by
  cases s with
  | nil => simp [split_path, leading_separators, regex_tokens_nil]
  | cons c cs =>
    by_cases hc : c = '/' ∨ c = backslash
    · rw [split_path_of_sep cs hc]
      simp [hc]
    · rw [split_path_of_not_sep cs hc]
      constructor
      · intro h
        exact absurd (List.mem_of_mem_head? h) (regex_tokens_no_root _)
      · rintro ⟨c2, cs2, e, h2⟩
        obtain ⟨rfl, -⟩ := List.cons.inj e
        exact absurd h2 hc

theorem split_path_tail_no_root (s : Str) : ['/'] ∉ (split_path s).tail := by
  cases s with
  | nil => simp [split_path, leading_separators, regex_tokens_nil]
  | cons c cs =>
    by_cases hc : c = '/' ∨ c = backslash
    · rw [split_path_of_sep cs hc]
      exact regex_tokens_no_root _
    · rw [split_path_of_not_sep cs hc]
      exact fun hm => regex_tokens_no_root _ (List.mem_of_mem_tail hm)

theorem split_path_eq_nil_iff (s : Str) : split_path s = [] ↔ s = [] := by
  cases s with
  | nil => simp [split_path, leading_separators, regex_tokens_nil]
  | cons c cs =>
    by_cases hc : c = '/' ∨ c = backslash
    · rw [split_path_of_sep cs hc]; simp
    · rw [split_path_of_not_sep cs hc]
      simpa using regex_tokens_ne_nil (List.cons_ne_nil c cs)

/-! ## Exchange of the two separators -/

theorem swap_sep_slash : swap_sep '/' = backslash := by decide

theorem swap_sep_backslash : swap_sep backslash = '/' := by decide

theorem swap_sep_other {c : Char} (h1 : c ≠ '/') (h2 : c ≠ backslash) : swap_sep c = c := by
  simp [swap_sep, h1, h2]

theorem swap_sep_eq_slash (c : Char) : (swap_sep c == '/') = (c == backslash) := by
  by_cases h1 : c = '/'
  · subst h1; decide
  · by_cases h2 : c = backslash
    · subst h2; decide
    · simp [swap_sep, h1, h2]

theorem swap_sep_eq_backslash (c : Char) : (swap_sep c == backslash) = (c == '/') := by
  by_cases h1 : c = '/'
  · subst h1; decide
  · by_cases h2 : c = backslash
    · subst h2; decide
    · simp [swap_sep, h1, h2]

theorem map_swap_sep_free {t : Str} (h : sep_free t) : t.map swap_sep = t := by
  induction t with
  | nil => rfl
  | cons c cs ih =>
    have hc := h c (List.mem_cons_self _ _)
    rw [List.map_cons, swap_sep_other hc.1 hc.2,
      ih (fun d hd => h d (List.mem_cons_of_mem _ hd))]

theorem leading_separators_swap (s : Str) :
    leading_separators (s.map swap_sep) = leading_separators s := by
  induction s with
  | nil => rfl
  | cons c cs ih =>
    by_cases h1 : c = '/'
    · subst h1
      simp [leading_separators, swap_sep_slash, ih]
    · by_cases h2 : c = backslash
      · subst h2
        simp [leading_separators, swap_sep_backslash, ih]
      · simp [leading_separators, swap_sep_other h1 h2, h1, h2]

theorem regex_search_swap (s : Str) :
    regex_search (s.map swap_sep) =
      (regex_search s).map (fun pr => (pr.1, pr.2.map swap_sep)) := by
  induction s with
  | nil => rfl
  | cons c cs ih =>
    by_cases h1 : c = '/'
    · subst h1
      have hb : ¬ backslash = '/' := by decide
      have hf : ((fun d => d == backslash) ∘ swap_sep) = (fun d => d == '/') :=
        funext swap_sep_eq_backslash
      simp only [List.map_cons, swap_sep_slash, regex_search, hb, if_false, if_true,
        Option.map_some', List.dropWhile_map, hf]
    · by_cases h2 : c = backslash
      · subst h2
        have hf : ((fun d => d == '/') ∘ swap_sep) = (fun d => d == backslash) :=
          funext swap_sep_eq_slash
        simp only [List.map_cons, swap_sep_backslash, regex_search, h1, if_false, if_true,
          Option.map_some', List.dropWhile_map, hf]
      · simp only [List.map_cons, swap_sep_other h1 h2, regex_search, h1, h2, if_false, ih]
        cases regex_search cs with
        | none => rfl
        | some pr => rfl

theorem regex_tokens_fuel_swap : ∀ (n : Nat) (s : Str),
    regex_tokens_fuel n (s.map swap_sep) = regex_tokens_fuel n s := by
  intro n
  induction n with
  | zero => intro s; rfl
  | succ n ih =>
    intro s
    unfold regex_tokens_fuel
    rw [regex_search_swap]
    cases hrec : regex_search s with
    | none =>
      have := map_swap_sep_free (regex_search_none_sep_free hrec)
      simp only [Option.map_none', this]
    | some pr =>
      obtain ⟨b, r⟩ := pr
      simp only [Option.map_some', ih r]

/-- Exchanging slashes and backslashes in a text does not change its segment sequence. -/
theorem split_path_swap (s : Str) : split_path (s.map swap_sep) = split_path s := by
  unfold split_path regex_tokens
  simp only [leading_separators_swap, ← List.map_drop, regex_tokens_fuel_swap,
    List.length_map]

theorem join_with_swap : ∀ (segs : List Str), (∀ t ∈ segs, sep_free t) →
    (join_with '/' segs).map swap_sep = join_with backslash segs
  | [], _ => rfl
  | [x], h => by
    simpa [join_with] using map_swap_sep_free (h x (by simp))
  | x :: y :: rest, h => by
    have hx := map_swap_sep_free (h x (by simp))
    have ih := join_with_swap (y :: rest) (fun t ht => h t (List.mem_cons_of_mem _ ht))
    simp only [join_with, List.map_append, List.map_cons, hx, swap_sep_slash, ih]

theorem not_upper_of_lower {a : Char} (h : a.isLower = true) : a.isUpper = false := by
  simp only [Char.isLower, Char.isUpper, Bool.and_eq_true, decide_eq_true_eq, ge_iff_le,
    Bool.and_eq_false_iff, decide_eq_false_iff_not] at *
  rw [UInt32.le_def, UInt32.le_def] at *
  rw [BitVec.le_def, BitVec.le_def] at *
  have e1 : (UInt32.toBitVec 97).toNat = 97 := by decide
  have e2 : (UInt32.toBitVec 122).toNat = 122 := by decide
  have e3 : (UInt32.toBitVec 65).toNat = 65 := by decide
  have e4 : (UInt32.toBitVec 90).toNat = 90 := by decide
  rw [e1, e2] at h
  rw [e3, e4]
  omega

theorem portable_posix_name_colon (n : Str) (h : ':' ∈ n) :
    portable_rules.portable_posix_name n = false := by
  simp only [portable_rules, portable_posix_name, Bool.and_eq_false_iff]
  right
  rw [List.all_eq_false]
  exact ⟨':', h, by decide⟩

theorem windows_name_colon (n : Str) (h : ':' ∈ n) :
    portable_rules.windows_name n = false := by
  simp only [portable_rules, windows_name, Bool.and_eq_false_iff]
  left; right
  rw [List.all_eq_false]
  exact ⟨':', h, by decide⟩

/-! ## The forward stack algorithm -/

/-- The forward scan started on a stack, in terms of the backward scan: the pending parents
of the backward scan are popped from the stack. -/
theorem forward_stack_eq (l : List Str) : ∀ stack : List Str,
    forward_stack l stack =
      if (resolve_scan l).1 ≤ stack.length then
        some ((stack.drop (resolve_scan l).1).reverse ++ (resolve_scan l).2)
      else none := by
  induction l with
  | nil => intro stack; simp [forward_stack, resolve_scan]
  | cons x l ih =>
    intro stack
    unfold forward_stack resolve_scan
    by_cases h1 : x = ['.']
    · simp only [h1, if_true]
      exact ih stack
    · by_cases h2 : x = ['.', '.']
      · subst h2
        have hne : ¬ ((['.', '.'] : Str) = ['.']) := by decide
        simp only [hne, if_false, if_true]
        cases stack with
        | nil => simp
        | cons a below =>
          simp only [ih below, List.length_cons, Nat.add_le_add_iff_right, List.drop_succ_cons]
      · simp only [h1, h2, if_false]
        rw [ih (x :: stack)]
        by_cases h3 : (resolve_scan l).1 = 0
        · simp [h3]
        · simp only [h3, if_false, List.length_cons]
          obtain ⟨k, hk⟩ := Nat.exists_eq_succ_of_ne_zero h3
          simp only [hk, Nat.succ_eq_add_one, Nat.add_le_add_iff_right, List.drop_succ_cons,
            Nat.add_sub_cancel]

theorem forward_stack_nil (l : List Str) :
    forward_stack l [] =
      if (resolve_scan l).1 = 0 then some (resolve_scan l).2 else none := by
  rw [forward_stack_eq l []]
  by_cases h : (resolve_scan l).1 = 0
  · simp [h]
  · simp [h]

/-! ## The format of a serialization -/

theorem chain_sep_free {t : Str} (h : sep_free t) :
    List.Chain' (fun a b : Char => ¬ (a = '/' ∧ b = '/')) t := by
  induction t with
  | nil => exact List.chain'_nil
  | cons c cs ih =>
    rw [List.chain'_cons']
    refine ⟨?_, ih (fun d hd => h d (List.mem_cons_of_mem _ hd))⟩
    intro y _ hcy
    exact (h c (List.mem_cons_self _ _)).1 hcy.1

theorem sep_free_head {t : Str} (h : sep_free t) : t.head? ≠ some '/' :=
  fun e => (h '/' (List.mem_of_mem_head? e)).1 rfl

theorem sep_free_last {t : Str} (h : sep_free t) : t.getLast? ≠ some '/' :=
  fun e => (h '/' (List.mem_of_getLast?_eq_some e)).1 rfl

theorem join_slash_ne_nil {y : Str} (rest : List Str) (hy : y ≠ []) :
    join_slash (y :: rest) ≠ [] := by
  cases rest with
  | nil => simpa [join_slash] using hy
  | cons z rest => simp [join_slash]

/-- Slash-joined segments that are non-empty and separator-free: no two slashes in a row, no
slash at either end. -/
theorem join_slash_shape : ∀ (keep : List Str), (∀ t ∈ keep, sep_free t ∧ t ≠ []) →
    List.Chain' (fun a b : Char => ¬ (a = '/' ∧ b = '/')) (join_slash keep) ∧
    (join_slash keep).head? ≠ some '/' ∧ (join_slash keep).getLast? ≠ some '/'
  | [], _ => by simp [join_slash]
  | [x], h => by
    have hx := (h x (by simp)).1
    exact ⟨chain_sep_free hx, sep_free_head hx, sep_free_last hx⟩
  | x :: y :: rest, h => by
    have hx := h x (by simp)
    have hy := h y (by simp)
    obtain ⟨i1, i2, i3⟩ :=
      join_slash_shape (y :: rest) (fun t ht => h t (List.mem_cons_of_mem _ ht))
    have hJ := join_slash_ne_nil rest hy.2
    simp only [join_slash]
    refine ⟨?_, ?_, ?_⟩
    · rw [List.chain'_append]
      refine ⟨chain_sep_free hx.1, ?_, ?_⟩
      · rw [List.chain'_cons']
        refine ⟨?_, i1⟩
        intro b hb hbb
        rw [hbb.2] at hb
        exact i2 hb
      · intro a ha b _ hab
        rw [hab.1] at ha
        exact sep_free_last hx.1 ha
    · rw [List.head?_append_of_ne_nil _ hx.2]
      exact sep_free_head hx.1
    · rw [List.getLast?_append_cons]
      obtain ⟨b, l, hbl⟩ := List.exists_cons_of_ne_nil hJ
      rw [hbl, List.getLast?_cons_cons, ← hbl]
      exact i3

theorem no_double_slash_of_chain {s : Str}
    (h : List.Chain' (fun a b : Char => ¬ (a = '/' ∧ b = '/')) s) :
    ¬ ∃ u v, s = u ++ '/' :: '/' :: v := by
  rintro ⟨u, v, rfl⟩
  have := (List.chain'_append.1 h).2.1
  rw [List.chain'_cons] at this
  exact this.1 ⟨rfl, rfl⟩

/-- The format of a root designator followed by a slash and slash-joined segments that are
non-empty and separator-free. -/
theorem serialized_shape (d : Str) (keep : List Str) (hd : sep_free d)
    (h : ∀ t ∈ keep, sep_free t ∧ t ≠ []) :
    backslash ∉ d ++ '/' :: join_slash keep ∧
    (¬ ∃ u v, d ++ '/' :: join_slash keep = u ++ '/' :: '/' :: v) ∧
    ((d ++ '/' :: join_slash keep).getLast? = some '/' → join_slash keep = []) := by
  obtain ⟨i1, i2, i3⟩ := join_slash_shape keep h
  refine ⟨?_, ?_, ?_⟩
  · have h1 := sep_free_no_backslash hd
    have h2 := join_slash_no_backslash keep (fun t ht => (h t ht).1)
    simp only [List.mem_append, List.mem_cons, not_or]
    exact ⟨h1, by decide, h2⟩
  · apply no_double_slash_of_chain
    rw [List.chain'_append]
    refine ⟨chain_sep_free hd, ?_, ?_⟩
    · rw [List.chain'_cons']
      refine ⟨?_, i1⟩
      intro b hb hbb
      rw [hbb.2] at hb
      exact i2 hb
    · intro a ha b _ hab
      rw [hab.1] at ha
      exact sep_free_last hd ha
  · intro hl
    by_contra hJ
    obtain ⟨b, l, hbl⟩ := List.exists_cons_of_ne_nil hJ
    rw [List.getLast?_append_cons, hbl, List.getLast?_cons_cons, ← hbl] at hl
    exact i3 hl

/-! ## A trailing slash -/

theorem dropWhile_slash_append_slash (cs : Str) :
    (cs ++ ['/']).dropWhile (fun d => d == '/') =
      if cs.dropWhile (fun d => d == '/') = [] then []
      else cs.dropWhile (fun d => d == '/') ++ ['/'] := by
  induction cs with
  | nil => simp [List.dropWhile]
  | cons c cs ih =>
    by_cases hc : c = '/'
    · subst hc
      rw [List.cons_append, dropWhile_slash_cons_eq, dropWhile_slash_cons_eq, ih]
    · rw [List.cons_append, dropWhile_slash_cons_ne _ hc, dropWhile_slash_cons_ne _ hc]
      simp

theorem dropWhile_backslash_append_slash (cs : Str) :
    (cs ++ ['/']).dropWhile (fun d => d == backslash) =
      cs.dropWhile (fun d => d == backslash) ++ ['/'] := by
  induction cs with
  | nil =>
    rw [List.nil_append, List.dropWhile_cons]
    have : ('/' == backslash) = false := by decide
    simp [this]
  | cons c cs ih =>
    by_cases hc : c = backslash
    · subst hc
      rw [List.cons_append, List.dropWhile_cons, List.dropWhile_cons]
      simp [ih]
    · rw [List.cons_append, List.dropWhile_cons, List.dropWhile_cons]
      simp [hc]

theorem getLast_backslash_run (cs : Str)
    (h : cs.dropWhile (fun d => d == backslash) = []) :
    (backslash :: cs).getLast? = some backslash := by
  rw [List.dropWhile_eq_nil_iff] at h
  rw [List.getLast?_cons]
  cases hl : cs.getLast? with
  | none => rfl
  | some a =>
    have := h a (List.mem_of_getLast?_eq_some hl)
    simp only [beq_iff_eq] at this
    simp [this]

theorem getLast_cons_ne {c : Char} {cs : Str} (h : (c :: cs).getLast? ≠ some backslash) :
    cs.getLast? ≠ some backslash := by
  cases cs with
  | nil => simp
  | cons d l => rwa [List.getLast?_cons_cons] at h

theorem regex_search_cons_slash (cs : Str) :
    regex_search ('/' :: cs) = some ([], cs.dropWhile (fun d => d == '/')) := by
  simp [regex_search]

theorem regex_search_cons_backslash (cs : Str) :
    regex_search (backslash :: cs) = some ([], cs.dropWhile (fun d => d == backslash)) := by
  have : ¬ backslash = '/' := by decide
  simp [regex_search, this]

theorem regex_search_cons_other {c : Char} (cs : Str) (h1 : c ≠ '/') (h2 : c ≠ backslash) :
    regex_search (c :: cs) =
      match regex_search cs with
      | some (before, rest) => some (c :: before, rest)
      | none => none := by
  simp [regex_search, h1, h2]

/-- One search in a text extended by a slash, for a text that does not end in a backslash. -/
theorem regex_search_trailing (s : Str) (hlast : s.getLast? ≠ some backslash) :
    regex_search (s ++ ['/']) =
      match regex_search s with
      | none => some (s, [])
      | some (before, rest) => some (before, if rest = [] then [] else rest ++ ['/']) := by
  induction s with
  | nil => simp [regex_search]
  | cons c cs ih =>
    by_cases h1 : c = '/'
    · subst h1
      rw [List.cons_append, regex_search_cons_slash, regex_search_cons_slash,
        dropWhile_slash_append_slash]
    · by_cases h2 : c = backslash
      · subst h2
        have hr : cs.dropWhile (fun d => d == backslash) ≠ [] :=
          fun e => hlast (getLast_backslash_run cs e)
        rw [List.cons_append, regex_search_cons_backslash, regex_search_cons_backslash,
          dropWhile_backslash_append_slash]
        simp [hr]
      · have ih := ih (getLast_cons_ne hlast)
        rw [List.cons_append, regex_search_cons_other _ h1 h2,
          regex_search_cons_other _ h1 h2, ih]
        cases regex_search cs with
        | none => rfl
        | some pr => rfl

theorem regex_search_suffix {s before rest : Str}
    (h : regex_search s = some (before, rest)) : ∃ t, s = t ++ rest := by
  induction s generalizing before rest with
  | nil => simp [regex_search] at h
  | cons c cs ih =>
    unfold regex_search at h
    split_ifs at h with h1 h2
    · simp only [Option.some.injEq, Prod.mk.injEq] at h
      obtain ⟨t, ht⟩ := List.dropWhile_suffix (fun d => d == '/') (l := cs)
      exact ⟨c :: t, by rw [← h.2, List.cons_append, ht]⟩
    · simp only [Option.some.injEq, Prod.mk.injEq] at h
      obtain ⟨t, ht⟩ := List.dropWhile_suffix (fun d => d == backslash) (l := cs)
      exact ⟨c :: t, by rw [← h.2, List.cons_append, ht]⟩
    · cases hrec : regex_search cs with
      | none => simp [hrec] at h
      | some pr =>
        obtain ⟨b, r⟩ := pr
        simp only [hrec, Option.some.injEq, Prod.mk.injEq] at h
        obtain ⟨t, ht⟩ := ih hrec
        exact ⟨c :: t, by rw [← h.2, List.cons_append, ← ht]⟩

/-- The tokens of a non-empty text that does not end in a backslash are not changed by a
slash appended to it. -/
theorem regex_tokens_trailing : ∀ (n : Nat) (s : Str), s.length < n → s ≠ [] →
    s.getLast? ≠ some backslash → regex_tokens (s ++ ['/']) = regex_tokens s := by
  intro n
  induction n with
  | zero => intro s h; omega
  | succ n ih =>
    intro s hn hne hlast
    rw [regex_tokens_eq (s ++ ['/']), regex_tokens_eq s, regex_search_trailing s hlast]
    cases hrec : regex_search s with
    | none => simp [hne, regex_tokens_nil]
    | some pr =>
      obtain ⟨b, r⟩ := pr
      simp only
      by_cases hr : r = []
      · simp [hr]
      · simp only [hr, if_false]
        have hlen := regex_search_length hrec
        obtain ⟨t, ht⟩ := regex_search_suffix hrec
        have hl : r.getLast? ≠ some backslash := by
          rw [← List.getLast?_append_of_ne_nil t hr, ← ht]
          exact hlast
        rw [ih r (by omega) hr hl]

theorem leading_separators_cons_sep {c : Char} (cs : Str) (hc : c = '/' ∨ c = backslash) :
    leading_separators (c :: cs) = leading_separators cs + 1 := by
  simp [leading_separators, hc]

theorem leading_separators_cons_other {c : Char} (cs : Str)
    (hc : ¬ (c = '/' ∨ c = backslash)) : leading_separators (c :: cs) = 0 := by
  simp [leading_separators, hc]

/-- The text after the leading separators, for a text extended by a slash. -/
theorem body_trailing (raw : Str) :
    (raw ++ ['/']).drop (leading_separators (raw ++ ['/'])) =
      if raw.drop (leading_separators raw) = [] then []
      else raw.drop (leading_separators raw) ++ ['/'] := by
  induction raw with
  | nil => simp [leading_separators]
  | cons c cs ih =>
    by_cases hc : c = '/' ∨ c = backslash
    · rw [List.cons_append, leading_separators_cons_sep _ hc, leading_separators_cons_sep _ hc,
        List.drop_succ_cons, List.drop_succ_cons, ih]
    · rw [List.cons_append, leading_separators_cons_other _ hc,
        leading_separators_cons_other _ hc]
      simp

theorem leading_separators_pos_trailing {raw : Str} (hne : raw ≠ []) :
    (0 < leading_separators (raw ++ ['/'])) = (0 < leading_separators raw) := by
  cases raw with
  | nil => exact absurd rfl hne
  | cons c cs =>
    by_cases hc : c = '/' ∨ c = backslash
    · simp [leading_separators, hc]
    · simp [leading_separators, hc]

/-- The segment sequence of a non-empty text that does not end in a backslash is not changed
by a slash appended to it. -/
theorem split_path_trailing {raw : Str} (hne : raw ≠ [])
    (hlast : raw.getLast? ≠ some backslash) :
    split_path (raw ++ ['/']) = split_path raw := by
  unfold split_path
  simp only [leading_separators_pos_trailing hne, body_trailing]
  by_cases hb : raw.drop (leading_separators raw) = []
  · simp [hb]
  · simp only [hb, if_false]
    have hl : (raw.drop (leading_separators raw)).getLast? ≠ some backslash := by
      have e := List.getLast?_append_of_ne_nil (raw.take (leading_separators raw)) hb
      rw [List.take_append_drop] at e
      rw [← e]
      exact hlast
    rw [regex_tokens_trailing _ _ (Nat.lt_succ_self _) hb hl]

/-- The facade reads the raw string only through `split_path` and `is_valid_path`, which a
slash appended to a non-empty text not ending in a backslash does not change. -/
theorem normalize_path_trailing (rules : NameRules) {raw : Str} (base : List Str)
    (hne : raw ≠ []) (hlast : raw.getLast? ≠ some backslash) :
    normalize_path rules (raw ++ ['/']) base = normalize_path rules raw base := by
  have hs := split_path_trailing hne hlast
  have hc : (raw ++ ['/']).contains backslash = raw.contains backslash := by
    have : ¬ backslash = '/' := by decide
    simp [this]
  have hv : ∀ w, is_valid_path rules (raw ++ ['/']) w = is_valid_path rules raw w := by
    intro w
    unfold is_valid_path
    rw [hs, hc]
  unfold normalize_path
  simp only [hs, hv]

theorem normalize_path_posix_backslash (rules : NameRules) {raw b0 : Str} (bs : List Str)
    (hroot : is_root b0 (has_windows_drive b0) true = true)
    (hw : has_windows_drive b0 = false) (hb : backslash ∈ raw) :
    normalize_path rules raw (b0 :: bs) = Except.ok none := by
  rw [normalize_path_eq rules raw b0 bs hroot, hw]
  have hv : is_valid_path rules raw false = false := by
    unfold is_valid_path
    simp [hb]
  cases split_path raw with
  | nil => rfl
  | cons first rest => simp [hv]

/-- With its two assertions met, the facade returns a value or no value, never a fault. -/
theorem normalize_path_ok (rules : NameRules) (raw b0 : Str) (bs : List Str)
    (hroot : is_root b0 (has_windows_drive b0) true = true) :
    ∃ r, normalize_path rules raw (b0 :: bs) = Except.ok r := by
  have hok : ∀ (x : Str) (segs : List Str), is_root x (has_windows_drive b0) true = true →
      ∃ r, normalize (x :: segs) (has_windows_drive b0) = Except.ok r := by
    intro x segs hx
    rw [normalize_eq x segs _ hx]
    split_ifs
    · exact ⟨_, rfl⟩
    · exact ⟨_, rfl⟩
  rw [normalize_path_eq rules raw b0 bs hroot]
  cases split_path raw with
  | nil => exact ⟨_, rfl⟩
  | cons first rest =>
    by_cases hv : is_valid_path rules raw (has_windows_drive b0) = true
    · simp only [hv, if_true]
      cases hr : is_root first (has_windows_drive b0) true with
      | true =>
        simp only [Bool.not_true, Bool.false_eq_true, if_false]
        exact hok first rest hr
      | false =>
        simp only [Bool.not_false, if_true]
        split_ifs
        · exact hok b0 rest hroot
        · exact hok b0 (bs ++ first :: rest) hroot
    · simp only [hv, Bool.false_eq_true, if_false]
      exact ⟨_, rfl⟩

/-! ## The claims -/

/-- C1, as the spec states it, fails: `/a/` is a normalized path for `is_normalized_path`
(trailing separators are accepted), the base is obtained from the normalized path `/data`, and
`normalize_path` returns `/a`, not the input string `/a/`. -/
theorem C1_idempotence_counterexample :
    is_normalized_path portable_rules "/a/".toList false = true ∧
    convert_to_internal_path portable_rules "/data".toList false =
      Except.ok ["/".toList, "data".toList] ∧
    normalize_path portable_rules "/a/".toList ["/".toList, "data".toList] =
      Except.ok (some "/a".toList) ∧
    normalize_path portable_rules "/a/".toList ["/".toList, "data".toList] ≠
      Except.ok (some "/a/".toList) := by
  refine ⟨by decide, by decide, by decide, by decide⟩

/-- C1 (amended): for every dialect, every path `p` accepted by `is_normalized_path` and
every base of the same dialect obtained from a normalized path, `normalize_path` returns the
serialization of the segment sequence of `p` (root designator, a slash, the segments after
element 0 joined by single slashes).  It returns `p` itself whenever `p` is written in that
form, and normalizing the result once more returns it unchanged (the provider rejecting the
empty name under the Windows dialect). -/
theorem C1_normalized_input_is_reserialized (rules : NameRules) (w : Bool) (p q : Str)
    (base : List Str)
    (hp : is_normalized_path rules p w = true)
    (hb : convert_to_internal_path rules q w = Except.ok base) :
    normalize_path rules p base = Except.ok (some (serialize w (split_path p))) ∧
    (serialize w (split_path p) = p → normalize_path rules p base = Except.ok (some p)) ∧
    ((w = true → rules.windows_name [] = false) →
      normalize_path rules (serialize w (split_path p)) base =
        Except.ok (some (serialize w (split_path p)))) := by
  have key := normalize_path_normalized hp hb
  refine ⟨key, fun e => by rw [key, e], ?_⟩
  intro hname
  obtain ⟨hv, first, rest, hs, hr, hall⟩ := is_normalized_path_cases hp
  obtain ⟨-, -, -, -, -, hnb⟩ := is_valid_path_cases hv
  have hne : ∀ t ∈ rest, t ≠ [] := by
    intro t ht
    cases w with
    | false => exact split_path_nonempty (hnb rfl) t (hs ▸ List.mem_cons_of_mem _ ht)
    | true =>
      rintro rfl
      have := (hall [] ht).1
      simp [name_ok, hname rfl] at this
  have hfilter : rest.filter (fun t => t != []) = rest := by
    rw [List.filter_eq_self]
    intro t ht
    simpa using hne t ht
  have hs2 : split_path (serialize w (first :: rest)) = first :: rest := by
    rw [split_path_serialize rest hr (fun t ht => (hall t ht).2.2.2), hfilter]
  have hp2 : is_normalized_path rules (serialize w (first :: rest)) w = true :=
    is_normalized_path_intro hs2 hr
      (fun hw => by
        subst hw
        exact serialize_no_backslash rest (fun t ht => (hall t ht).2.2.2))
      (fun t ht => ⟨(hall t ht).1, (hall t ht).2.1, (hall t ht).2.2.1⟩)
  rw [hs]
  have := normalize_path_normalized hp2 hb
  rw [hs2] at this
  exact this

/-- C1 (amended) at the path `/a/` and the base obtained from `/data`. -/
theorem C1_normalized_input_is_reserialized_witness :
    is_normalized_path portable_rules "/a/".toList false = true ∧
    convert_to_internal_path portable_rules "/data".toList false =
      Except.ok (split_path "/data".toList) ∧
    normalize_path portable_rules "/a/".toList (split_path "/data".toList) =
      Except.ok (some (serialize false (split_path "/a/".toList))) ∧
    normalize_path portable_rules (serialize false (split_path "/a/".toList))
        (split_path "/data".toList) =
      Except.ok (some (serialize false (split_path "/a/".toList))) :=
  ⟨by decide, by decide,
    (C1_normalized_input_is_reserialized portable_rules false "/a/".toList "/data".toList
      (split_path "/data".toList) (by decide) (by decide)).1,
    (C1_normalized_input_is_reserialized portable_rules false "/a/".toList "/data".toList
      (split_path "/data".toList) (by decide) (by decide)).2.2 (fun _ => by decide)⟩

/-- C2: for a base obtained from a normalized path and a raw string that normalizes to `s`,
the string `s` is a legal argument of `convert_to_internal_path`, which returns
`split_path s`, and serializing that segment sequence again with `normalize` gives `s`.  Under
the Windows dialect the filename-rule provider is assumed to reject the empty name, as
`boost::filesystem::windows_name` does; under the POSIX dialect nothing is assumed. -/
theorem C2_round_trip (rules : NameRules) (w : Bool) (q x s : Str) (base : List Str)
    (hname : w = true → rules.windows_name [] = false)
    (hb : convert_to_internal_path rules q w = Except.ok base)
    (hx : normalize_path rules x base = Except.ok (some s)) :
    convert_to_internal_path rules s w = Except.ok (split_path s) ∧
    normalize (split_path s) w = Except.ok (some s) := by
  obtain ⟨r0, keep, rfl, hroot, hkeep⟩ := normalize_path_some hb hx
  have hne : ∀ t ∈ keep, t ≠ [] := by
    intro t ht
    cases w with
    | false => exact (hkeep t ht).2.2.1 rfl
    | true =>
      rintro rfl
      have := (hkeep [] ht).1
      simp [name_ok, hname rfl] at this
  have hfilter : keep.filter (fun t => t != []) = keep := by
    rw [List.filter_eq_self]
    intro t ht
    simpa using hne t ht
  have hs : split_path (serialize w (r0 :: keep)) = r0 :: keep := by
    rw [split_path_serialize keep hroot (fun t ht => (hkeep t ht).2.1), hfilter]
  constructor
  · unfold convert_to_internal_path
    rw [is_normalized_path_intro hs hroot
      (fun hw => by
        subst hw
        exact serialize_no_backslash keep (fun t ht => (hkeep t ht).2.1))
      (fun t ht => ⟨(hkeep t ht).1, (hkeep t ht).2.2.2⟩)]
    rfl
  · rw [hs, normalize_eq r0 keep w hroot,
      resolve_scan_ordinary keep (fun t ht => (hkeep t ht).2.2.2)]
    simp

/-- C2 at the base obtained from `Z:/data` and the raw string `a/../b`. -/
theorem C2_round_trip_witness :
    normalize (split_path "Z:/data/b".toList) true = Except.ok (some "Z:/data/b".toList) :=
  (C2_round_trip portable_rules true "Z:/data".toList "a/../b".toList "Z:/data/b".toList
    (split_path "Z:/data".toList) (fun _ => by decide) (by decide) (by decide)).2

/-- C3: for a non-empty, strictly rooted base, a raw string that `is_valid_path` rejects (for
the dialect derived from element 0 of the base) gives no value; in particular the empty string
gives no value, and under a POSIX base so does every raw string containing a backslash. -/
theorem C3_invalid_input_gives_no_value (rules : NameRules) (raw b0 : Str) (bs : List Str)
    (hroot : is_root b0 (has_windows_drive b0) true = true) :
    (is_valid_path rules raw (has_windows_drive b0) = false →
        normalize_path rules raw (b0 :: bs) = Except.ok none) ∧
    normalize_path rules [] (b0 :: bs) = Except.ok none ∧
    (has_windows_drive b0 = false → backslash ∈ raw →
        normalize_path rules raw (b0 :: bs) = Except.ok none) := by
  have key : is_valid_path rules raw (has_windows_drive b0) = false →
      normalize_path rules raw (b0 :: bs) = Except.ok none := by
    intro hv
    rw [normalize_path_eq rules raw b0 bs hroot]
    cases split_path raw with
    | nil => rfl
    | cons first rest => simp [hv]
  refine ⟨key, ?_, ?_⟩
  · rw [normalize_path_eq rules [] b0 bs hroot]
    rfl
  · intro hw hb
    apply key
    rw [hw]
    unfold is_valid_path
    simp [hb]

/-- C3 at the base `/data` and the raw string `a\b`. -/
theorem C3_invalid_input_gives_no_value_witness :
    is_root ['/'] (has_windows_drive ['/']) true = true ∧
    is_valid_path portable_rules ['a', backslash, 'b'] (has_windows_drive ['/']) = false ∧
    normalize_path portable_rules ['a', backslash, 'b'] [['/'], "data".toList] =
      Except.ok none :=
  ⟨by decide, by decide,
    (C3_invalid_input_gives_no_value portable_rules ['a', backslash, 'b'] ['/']
      ["data".toList] (by decide)).1 (by decide)⟩

/-- C4: for a segment sequence whose element 0 is a strict root, `normalize` returns no value
exactly when some prefix of the segments after element 0 holds more `..` segments than
ordinary segments; otherwise it returns a value. -/
theorem C4_root_escape_sole_failure (first : Str) (rest : List Str) (w : Bool)
    (hroot : is_root first w true = true) :
    (normalize (first :: rest) w = Except.ok none ↔
      ∃ n, ((rest.take n).filter is_ordinary).length < (rest.take n).count ['.', '.']) ∧
    ((¬ ∃ n, ((rest.take n).filter is_ordinary).length < (rest.take n).count ['.', '.']) →
      ∃ s, normalize (first :: rest) w = Except.ok (some s)) := by
  rw [normalize_eq first rest w hroot]
  have hiff : (resolve_scan rest).1 ≠ 0 ↔
      ∃ n, ((rest.take n).filter is_ordinary).length < (rest.take n).count ['.', '.'] := by
    constructor
    · intro h0
      obtain ⟨n, hn⟩ := resolve_scan_attained rest
      exact ⟨n, by omega⟩
    · rintro ⟨n, hn⟩
      have := resolve_scan_bound rest n
      omega
  constructor
  · rw [← hiff]
    by_cases h0 : (resolve_scan rest).1 = 0
    · simp [h0]
    · simp [h0]
  · intro hno
    have h0 : (resolve_scan rest).1 = 0 := by
      by_contra hc
      exact hno (hiff.1 hc)
    exact ⟨serialize w (first :: (resolve_scan rest).2), by simp [h0]⟩

/-- C4 at the segments `/`, `.`, `..`: the single `..` escapes the root. -/
theorem C4_root_escape_sole_failure_witness :
    is_root ['/'] false true = true ∧
    normalize [['/'], ['.'], ['.', '.']] false = Except.ok none :=
  ⟨by decide,
    (C4_root_escape_sole_failure ['/'] [['.'], ['.', '.']] false (by decide)).1.2
      ⟨2, by decide⟩⟩

/-- C5: for a base obtained from a normalized path, no segment of a successful result of
`normalize_path` is `.` or `..`. -/
theorem C5_result_has_no_dot_segments (rules : NameRules) (w : Bool) (q raw s : Str)
    (base : List Str)
    (hb : convert_to_internal_path rules q w = Except.ok base)
    (hx : normalize_path rules raw base = Except.ok (some s)) :
    ∀ t ∈ split_path s, t ≠ ['.'] ∧ t ≠ ['.', '.'] := by
  obtain ⟨r0, keep, rfl, hroot, hkeep⟩ := normalize_path_some hb hx
  rw [split_path_serialize keep hroot (fun t ht => (hkeep t ht).2.1)]
  intro t ht
  rcases List.mem_cons.1 ht with rfl | ht
  · exact root_not_dot hroot
  · exact (hkeep t (List.mem_of_mem_filter ht)).2.2.2

/-- C5 at the base obtained from `/data` and the raw string `./a/../b/.`. -/
theorem C5_result_has_no_dot_segments_witness :
    normalize_path portable_rules "./a/../b/.".toList (split_path "/data".toList) =
      Except.ok (some "/data/b".toList) ∧
    "b".toList ≠ ['.'] ∧ "b".toList ≠ ['.', '.'] :=
  ⟨by decide,
    C5_result_has_no_dot_segments portable_rules false "/data".toList "./a/../b/.".toList
      "/data/b".toList (split_path "/data".toList) (by decide) (by decide) "b".toList
      (by decide)⟩

/-- C6: for a valid raw string whose first segment is a root under the non-strict rule, the
result depends on the base only through its element 0.  Under the Windows dialect with a bare
`/` first segment the result is `normalize` of the base drive marker followed by the remaining
segments, so a successful result starts with the drive marker and a slash; otherwise (POSIX
root, explicit drive marker) it is `normalize` of the tokenized sequence.  Base `Z:/data` and
raw `/a/b/c` give `Z:/a/b/c`. -/
theorem C6_rooted_input (rules : NameRules) (raw b0 first : Str) (bs rest : List Str)
    (hroot : is_root b0 (has_windows_drive b0) true = true)
    (hv : is_valid_path rules raw (has_windows_drive b0) = true)
    (hs : split_path raw = first :: rest)
    (hr : is_root first (has_windows_drive b0) false = true) :
    (∀ bs2, normalize_path rules raw (b0 :: bs2) = normalize_path rules raw (b0 :: bs)) ∧
    (has_windows_drive b0 = true → first = ['/'] →
      normalize_path rules raw (b0 :: bs) = normalize (b0 :: rest) true ∧
      ∀ s, normalize_path rules raw (b0 :: bs) = Except.ok (some s) →
        ∃ t, s = b0 ++ '/' :: t) ∧
    (¬ (has_windows_drive b0 = true ∧ first = ['/']) →
      normalize_path rules raw (b0 :: bs) =
        normalize (first :: rest) (has_windows_drive b0)) ∧
    normalize_path portable_rules "/a/b/c".toList ["Z:".toList, "data".toList] =
      Except.ok (some "Z:/a/b/c".toList) := by
  have hsub : has_windows_drive b0 = true → first = ['/'] →
      ∀ bs2, normalize_path rules raw (b0 :: bs2) = normalize (b0 :: rest) true := by
    intro hw hf bs2
    rw [normalize_path_eq rules raw b0 bs2 hroot, hs]
    subst hf
    rw [hw] at hv
    have e : is_root ['/'] true true = false := by decide
    simp [hv, hw, e]
  have hasis : ¬ (has_windows_drive b0 = true ∧ first = ['/']) →
      ∀ bs2, normalize_path rules raw (b0 :: bs2) =
        normalize (first :: rest) (has_windows_drive b0) := by
    intro hn bs2
    rw [normalize_path_eq rules raw b0 bs2 hroot, hs]
    have hstrict : is_root first (has_windows_drive b0) true = true := by
      cases hw : has_windows_drive b0 with
      | false =>
        rw [hw] at hr
        rw [is_root_posix hr]; rfl
      | true =>
        rw [hw] at hr
        have hf : first ≠ ['/'] := fun e => hn ⟨hw, e⟩
        simp only [is_root, Bool.not_false, Bool.true_or, if_true, Bool.true_and,
          Bool.or_eq_true, beq_iff_eq] at hr
        rcases hr with hr | hr
        · exact absurd hr hf
        · simp [is_root, hr]
    simp [hv, hstrict]
  refine ⟨?_, ?_, ?_, by decide⟩
  · intro bs2
    by_cases hc : has_windows_drive b0 = true ∧ first = ['/']
    · rw [hsub hc.1 hc.2 bs2, hsub hc.1 hc.2 bs]
    · rw [hasis hc bs2, hasis hc bs]
  · intro hw hf
    refine ⟨hsub hw hf bs, ?_⟩
    intro s hsome
    rw [hsub hw hf bs, normalize_eq b0 rest true (hw ▸ hroot)] at hsome
    split_ifs at hsome with h0
    · simp only [Except.ok.injEq, Option.some.injEq] at hsome
      exact ⟨join_slash (resolve_scan rest).2, by rw [← hsome]; simp [serialize]⟩
    · simp at hsome
  · intro hn
    exact hasis hn bs

/-- C6 at the base `Z:/data` and the raw string `/a/b/c`. -/
theorem C6_rooted_input_witness :
    is_valid_path portable_rules "/a/b/c".toList (has_windows_drive "Z:".toList) = true ∧
    normalize_path portable_rules "/a/b/c".toList ["Z:".toList, "data".toList] =
      normalize ["Z:".toList, "a".toList, "b".toList, "c".toList] true :=
  ⟨by decide,
    ((C6_rooted_input portable_rules "/a/b/c".toList "Z:".toList "/".toList ["data".toList]
      ["a".toList, "b".toList, "c".toList] (by decide) (by decide) (by decide)
      (by decide)).2.1 (by decide) (by decide)).1⟩

/-- C7: for a base obtained from a normalized path and a valid raw string whose first segment
is not a root and none of whose segments is `..`, `normalize_path` returns the root designator
of the base, a slash, and the name segments of the base followed by the segments of the raw
string other than `.`, joined by slashes.  In particular `.` gives the serialization of the
base, and base `/data` with raw `a//b//c//` gives `/data/a/b/c`. -/
theorem C7_relative_resolution (rules : NameRules) (w : Bool) (q raw first : Str)
    (base rest : List Str)
    (hb : convert_to_internal_path rules q w = Except.ok base)
    (hv : is_valid_path rules raw w = true)
    (hs : split_path raw = first :: rest)
    (hrel : is_root first w false = false)
    (hnp : ∀ t ∈ split_path raw, t ≠ ['.', '.']) :
    normalize_path rules raw base =
      Except.ok (some (serialize w (base ++ (split_path raw).filter (fun t => t != ['.'])))) ∧
    (name_ok rules w ['.'] = true →
      normalize_path rules ['.'] base = Except.ok (some (serialize w base))) ∧
    normalize_path portable_rules "a//b//c//".toList ["/".toList, "data".toList] =
      Except.ok (some "/data/a/b/c".toList) := by
  obtain ⟨b0, bs, rfl, -, hroot, hw, -, hall⟩ := convert_cases hb
  subst hw
  have main : ∀ (raw2 first2 : Str) (rest2 : List Str),
      is_valid_path rules raw2 (has_windows_drive b0) = true →
      split_path raw2 = first2 :: rest2 →
      is_root first2 (has_windows_drive b0) false = false →
      (∀ t ∈ split_path raw2, t ≠ ['.', '.']) →
      normalize_path rules raw2 (b0 :: bs) =
        Except.ok (some (serialize (has_windows_drive b0)
          (b0 :: bs ++ (split_path raw2).filter (fun t => t != ['.'])))) := by
    intro raw2 first2 rest2 hv2 hs2 hrel2 hnp2
    have hstrict : is_root first2 (has_windows_drive b0) true = false := by
      cases h : is_root first2 (has_windows_drive b0) true with
      | false => rfl
      | true => rw [is_root_strict_weaken h] at hrel2; exact absurd hrel2 (by decide)
    have hsub : (has_windows_drive b0 && first2 == ['/']) = false := by
      cases hw : has_windows_drive b0 with
      | false => rfl
      | true =>
        rw [hw] at hrel2
        simp only [is_root, Bool.not_false, Bool.true_or, if_true, Bool.true_and,
          Bool.or_eq_false_iff] at hrel2
        simpa using hrel2.1
    rw [normalize_path_eq rules raw2 b0 bs hroot, hs2]
    simp only [hv2, hstrict, hsub, if_true, Bool.not_false, Bool.false_eq_true, if_false]
    simp only [List.cons_append]
    rw [normalize_eq b0 _ _ hroot, resolve_scan_no_parent]
    · have hbs : bs.filter (fun t => t != ['.']) = bs := by
        rw [List.filter_eq_self]
        intro t ht
        simpa using (hall t ht).2.1
      simp only [if_true, List.filter_append, hbs, List.cons_append]
    · intro t ht
      rcases List.mem_append.1 ht with ht | ht
      · exact (hall t ht).2.2.1
      · exact hnp2 t (hs2 ▸ ht)
  refine ⟨main raw first rest hv hs hrel hnp, ?_, by decide⟩
  intro hdot
  have hsd : split_path ['.'] = [['.']] := by decide
  have hvd : is_valid_path rules ['.'] (has_windows_drive b0) = true := by
    unfold is_valid_path
    rw [hsd]
    have e2 : is_root ['.'] (has_windows_drive b0) false = false := by
      cases has_windows_drive b0 <;> decide
    have e3 : ¬ backslash = '.' := by decide
    simp [e2, e3, hdot]
  have := main ['.'] ['.'] [] hvd hsd (by cases has_windows_drive b0 <;> decide)
    (by rw [hsd]; intro t ht; simp only [List.mem_singleton] at ht; rw [ht]; decide)
  rw [this, hsd]
  simp

/-- C7 at the base obtained from `/data` and the raw string `a//b//c//`. -/
theorem C7_relative_resolution_witness :
    normalize_path portable_rules "a//b//c//".toList (split_path "/data".toList) =
      Except.ok (some (serialize false
        (split_path "/data".toList ++
          (split_path "a//b//c//".toList).filter (fun t => t != ['.'])))) ∧
    normalize_path portable_rules ['.'] (split_path "/data".toList) =
      Except.ok (some (serialize false (split_path "/data".toList))) :=
  ⟨(C7_relative_resolution portable_rules false "/data".toList "a//b//c//".toList "a".toList
      (split_path "/data".toList) ["b".toList, "c".toList]
      (by decide) (by decide) (by decide) (by decide) (by decide)).1,
    (C7_relative_resolution portable_rules false "/data".toList "a//b//c//".toList "a".toList
      (split_path "/data".toList) ["b".toList, "c".toList]
      (by decide) (by decide) (by decide) (by decide) (by decide)).2.1 (by decide)⟩

/-- C8: for a base that is only the root or drive marker, `normalize_path` of `..` returns
no value; for a base obtained from a normalized path with at least two segments (and `..`
accepted by the filename rule of the dialect, as spec 4.2 says it always is) it returns the
serialization of the base without its last segment.  Base `/data` gives `/` and base
`Z:/data` gives `Z:/`. -/
theorem C8_parent_of_base (rules : NameRules) :
    (∀ b0 : Str, is_root b0 (has_windows_drive b0) true = true →
      normalize_path rules ['.', '.'] [b0] = Except.ok none) ∧
    (∀ (w : Bool) (q : Str) (base : List Str),
      convert_to_internal_path rules q w = Except.ok base → 2 ≤ base.length →
      name_ok rules w ['.', '.'] = true →
      normalize_path rules ['.', '.'] base = Except.ok (some (serialize w base.dropLast))) ∧
    normalize_path portable_rules ['.', '.'] ["/".toList, "data".toList] =
      Except.ok (some "/".toList) ∧
    normalize_path portable_rules ['.', '.'] ["Z:".toList, "data".toList] =
      Except.ok (some "Z:/".toList) := by
  have hsd : split_path ['.', '.'] = [['.', '.']] := by decide
  have hstrict : ∀ w, is_root ['.', '.'] w true = false := by decide
  have hloose : ∀ w, is_root ['.', '.'] w false = false := by decide
  have hsub : ∀ w : Bool, (w && (['.', '.'] : Str) == ['/']) = false := by decide
  refine ⟨?_, ?_, by decide, by decide⟩
  · intro b0 hroot
    rw [normalize_path_eq rules _ b0 [] hroot, hsd]
    simp only [hstrict, hsub, Bool.not_false, if_true, Bool.false_eq_true, if_false]
    split_ifs with hv
    · rw [List.cons_append, normalize_eq b0 _ _ hroot]
      simp [resolve_scan]
    · rfl
  · intro w q base hb hlen hdd
    obtain ⟨b0, bs, rfl, -, hroot, hw, -, hall⟩ := convert_cases hb
    subst hw
    have hbs : bs ≠ [] := by
      rintro rfl
      simp at hlen
    have hv : is_valid_path rules ['.', '.'] (has_windows_drive b0) = true := by
      unfold is_valid_path
      rw [hsd]
      have e3 : ¬ backslash = '.' := by decide
      simp [hloose, e3, hdd]
    rw [normalize_path_eq rules _ b0 bs hroot, hsd]
    simp only [hv, hstrict, hsub, Bool.not_false, if_true, Bool.false_eq_true, if_false]
    rw [List.cons_append, normalize_eq b0 _ _ hroot,
      resolve_scan_append_parent bs (fun t ht => ⟨(hall t ht).2.1, (hall t ht).2.2.1⟩)]
    simp [hbs, List.dropLast_cons_of_ne_nil hbs]

/-- C8 at the bases `/` and `Z:/data`. -/
theorem C8_parent_of_base_witness :
    normalize_path portable_rules ['.', '.'] ["/".toList] = Except.ok none ∧
    normalize_path portable_rules ['.', '.'] (split_path "Z:/data".toList) =
      Except.ok (some (serialize true (split_path "Z:/data".toList).dropLast)) :=
  ⟨(C8_parent_of_base portable_rules).1 "/".toList (by decide),
    (C8_parent_of_base portable_rules).2.1 true "Z:/data".toList
      (split_path "Z:/data".toList) (by decide) (by decide) (by decide)⟩

/-- C9: a non-empty raw string made only of separator characters resolves to the root: under
a Windows base with drive marker `D` it gives `D` followed by `/`, for any mix of `/` and the
backslash; under a POSIX base a raw string made only of `/` gives `/`. -/
theorem C9_separator_only_input (rules : NameRules) (raw b0 : Str) (bs : List Str)
    (hroot : is_root b0 (has_windows_drive b0) true = true) (hne : raw ≠ []) :
    (has_windows_drive b0 = true → (∀ c ∈ raw, c = '/' ∨ c = backslash) →
      normalize_path rules raw (b0 :: bs) = Except.ok (some (b0 ++ ['/']))) ∧
    (has_windows_drive b0 = false → (∀ c ∈ raw, c = '/') →
      normalize_path rules raw (b0 :: bs) = Except.ok (some ['/'])) := by
  constructor
  · intro hw hall
    have hs := split_path_separators hne hall
    have hv : is_valid_path rules raw true = true := by
      unfold is_valid_path
      simp [hs, is_root]
    rw [normalize_path_eq rules raw b0 bs hroot, hs, hw]
    simp only [hv, if_true]
    rw [hw] at hroot
    have e : is_root ['/'] true true = false := by decide
    simp only [e, Bool.not_false, if_true, Bool.true_and, beq_self_eq_true]
    rw [normalize_eq b0 [] true hroot]
    simp [resolve_scan, serialize, join_slash]
  · intro hw hall
    have hall2 : ∀ c ∈ raw, c = '/' ∨ c = backslash := fun c hc => Or.inl (hall c hc)
    have hs := split_path_separators hne hall2
    have hnb : backslash ∉ raw := fun hm => absurd (hall _ hm) (by decide)
    have hv : is_valid_path rules raw false = true := by
      unfold is_valid_path
      simp [hs, is_root, hnb]
    rw [normalize_path_eq rules raw b0 bs hroot, hs, hw]
    simp only [hv, if_true]
    have e : is_root ['/'] false true = true := by decide
    simp only [e, Bool.not_true, Bool.false_eq_true, if_false]
    rw [normalize_eq ['/'] [] false e]
    simp [resolve_scan, serialize, join_slash]

/-- C9 at the base `Z:/data` and the raw string made of a backslash and a slash. -/
theorem C9_separator_only_input_witness :
    normalize_path portable_rules [backslash, '/'] ["Z:".toList, "data".toList] =
      Except.ok (some "Z:/".toList) :=
  (C9_separator_only_input portable_rules [backslash, '/'] "Z:".toList ["data".toList]
    (by decide) (by decide)).1 (by decide) (by decide)

/-- C10: on `a/\b`, where a slash is followed at once by a backslash, `split_path` returns
the three segments `a`, the empty string and `b`: the expression `/+|\\+` matches the two
separators as two runs and the iterator yields the empty text between them.  The leading
loop of the same function takes the two separators as one run (second equation), and a run
of one separator character yields no empty segment (third equation). -/
theorem C10_mixed_run_yields_empty_segment :
    split_path ['a', '/', backslash, 'b'] = [['a'], [], ['b']] ∧
    split_path ['/', backslash, 'a'] = [['/'], ['a']] ∧
    split_path ['a', '/', '/', 'b'] = [['a'], ['b']] := by
  refine ⟨by decide, by decide, by decide⟩

/-- C11: the first element of `split_path s` is the root marker `/` exactly when `s` starts
with a slash or a backslash; the marker is then present exactly once, whatever the number of
leading separators; `/` never occurs after element 0; and `split_path s` is empty exactly when
`s` is the empty string. -/
theorem C11_root_marker_placement (s : Str) :
    ((split_path s).head? = some ['/'] ↔
      ∃ c cs, s = c :: cs ∧ (c = '/' ∨ c = backslash)) ∧
    ((∃ c cs, s = c :: cs ∧ (c = '/' ∨ c = backslash)) → (split_path s).count ['/'] = 1) ∧
    ['/'] ∉ (split_path s).tail ∧
    (split_path s = [] ↔ s = []) := by
  refine ⟨split_path_head_root_iff s, ?_, split_path_tail_no_root s, split_path_eq_nil_iff s⟩
  rintro ⟨c, cs, rfl, hc⟩
  rw [split_path_of_sep cs hc, List.count_cons_self,
    List.count_eq_zero_of_not_mem (regex_tokens_no_root _)]

/-- C11 at the text `//a/b`, which starts with two separators. -/
theorem C11_root_marker_placement_witness :
    (split_path "//a/b".toList).count ['/'] = 1 :=
  (C11_root_marker_placement "//a/b".toList).2.1 ⟨'/', "/a/b".toList, by decide, by decide⟩

/-- C12: for segments none of which contains a slash or a backslash, the segments joined with
`/` and the same segments joined with the backslash are tokenized to the same sequence; more
generally, exchanging the two separator characters in any text does not change its segment
sequence. -/
theorem C12_separator_equivalence (segs : List Str) (h : ∀ t ∈ segs, sep_free t) :
    split_path (join_with '/' segs) = split_path (join_with backslash segs) ∧
    ∀ s : Str, split_path (s.map swap_sep) = split_path s := by
  refine ⟨?_, split_path_swap⟩
  rw [← join_with_swap segs h, split_path_swap]

/-- C12 at the segments `a`, the empty string, `b`. -/
theorem C12_separator_equivalence_witness :
    split_path (join_with '/' ["a".toList, [], "b".toList]) =
      split_path (join_with backslash ["a".toList, [], "b".toList]) :=
  (C12_separator_equivalence ["a".toList, [], "b".toList] (by decide)).1

/-- C13: a path that contains a backslash is not valid under the POSIX dialect, whatever the
rest of the string. -/
theorem C13_backslash_invalid_under_posix (rules : NameRules) (path : Str)
    (h : backslash ∈ path) : is_valid_path rules path false = false := by
  unfold is_valid_path
  simp [h]

/-- C13 at the path made of one backslash. -/
theorem C13_backslash_invalid_under_posix_witness :
    is_valid_path portable_rules [backslash] false = false :=
  C13_backslash_invalid_under_posix portable_rules [backslash] (by decide)

/-- C14: a path whose first segment is a lowercase letter followed by a colon is not valid,
under the Windows dialect and under the POSIX dialect (so `c:` followed by a backslash is not
valid under Windows); a letter followed by a colon is a drive marker only when the letter is
uppercase, and it is a root only under the Windows dialect (`C:/` is valid under Windows and
not under POSIX).  The filename-rule provider is assumed to reject every name that contains a
colon, as spec 4.2 describes both rules. -/
theorem C14_lowercase_drive_rejected (rules : NameRules)
    (hposix : ∀ n : Str, ':' ∈ n → rules.portable_posix_name n = false)
    (hwin : ∀ n : Str, ':' ∈ n → rules.windows_name n = false)
    (path : Str) (l : Char) (rest : List Str)
    (hs : split_path path = [l, ':'] :: rest) (hl : l.isLower = true) :
    is_valid_path rules path true = false ∧
    is_valid_path rules path false = false ∧
    is_valid_path rules ['c', ':', backslash] true = false ∧
    (∀ a : Char, has_windows_drive [a, ':'] = a.isUpper) ∧
    (∀ (a : Char) (strict : Bool), is_root [a, ':'] false strict = false) ∧
    is_valid_path rules "C:/".toList true = true ∧
    is_valid_path rules "C:/".toList false = false := by
  have hname : ∀ (a : Char) (w : Bool), name_ok rules w [a, ':'] = false := by
    intro a w
    cases w <;> simp [name_ok, hposix, hwin]
  have hnr : ∀ (a : Char) (strict : Bool), is_root [a, ':'] false strict = false := by
    intro a strict
    cases strict <;> simp [is_root]
  have hlow : ∀ (a : Char) (r : List Str) (p : Str) (w : Bool), a.isLower = true →
      split_path p = [a, ':'] :: r → is_valid_path rules p w = false := by
    intro a r p w ha hsp
    have hr : is_root [a, ':'] w false = false := by
      cases w
      · exact hnr a false
      · simp [is_root, has_windows_drive, not_upper_of_lower ha]
    unfold is_valid_path
    split_ifs with h0
    · rfl
    · simp [hsp, hr, hname]
  refine ⟨hlow l rest path true hl hs, hlow l rest path false hl hs,
    hlow 'c' [] _ true (by decide) (by decide), ?_, hnr, ?_, ?_⟩
  · intro a
    simp [has_windows_drive]
  · have e : split_path "C:/".toList = ["C:".toList] := by decide
    unfold is_valid_path
    rw [e]
    have e2 : is_root ['C', ':'] true false = true := by decide
    simp [e2]
  · have e : split_path "C:/".toList = ["C:".toList] := by decide
    unfold is_valid_path
    rw [e]
    have e2 : is_root ['C', ':'] false false = false := by decide
    have e3 : ¬ backslash ∈ ['C', ':', '/'] := by decide
    have := hname 'C' false
    simp [e2, e3, this]

/-- C14 with the filename rules modelled from the spec, at the path `c:/a`. -/
theorem C14_lowercase_drive_rejected_witness :
    is_valid_path portable_rules "c:/a".toList true = false ∧
    is_valid_path portable_rules "c:/a".toList false = false :=
  ⟨(C14_lowercase_drive_rejected portable_rules
      portable_posix_name_colon windows_name_colon
      "c:/a".toList 'c' ["a".toList] (by decide) (by decide)).1,
    (C14_lowercase_drive_rejected portable_rules
      portable_posix_name_colon windows_name_colon
      "c:/a".toList 'c' ["a".toList] (by decide) (by decide)).2.1⟩

/-- C15: under the Windows dialect a path accepted by `is_normalized_path` has a drive marker
(one uppercase letter followed by a colon) as its first segment; hence no path that starts with
a separator and no relative path (first segment not a root, or no segment at all) is
normalized under Windows.  Under the POSIX dialect a normalized path starts with `/`. -/
theorem C15_windows_requires_drive (rules : NameRules) (p : Str) :
    (is_normalized_path rules p true = true →
      ∃ (first : Str) (rest : List Str) (a : Char), split_path p = first :: rest ∧
        has_windows_drive first = true ∧ first = [a, ':'] ∧ a.isUpper = true) ∧
    ((∃ c cs, p = c :: cs ∧ (c = '/' ∨ c = backslash)) →
      is_normalized_path rules p true = false) ∧
    ((∀ first ∈ (split_path p).head?, is_root first true false = false) →
      is_normalized_path rules p true = false) ∧
    (is_normalized_path rules p false = true → ∃ cs, p = '/' :: cs) := by
  refine ⟨?_, ?_, ?_, ?_⟩
  · intro h
    obtain ⟨-, first, rest, hs, hr, -⟩ := is_normalized_path_cases h
    have hd := is_root_windows_strict hr
    obtain ⟨a, e, ha⟩ := has_windows_drive_form hd
    exact ⟨first, rest, a, hs, hd, e, ha⟩
  · intro hsep
    cases h : is_normalized_path rules p true with
    | false => rfl
    | true =>
      obtain ⟨-, first, rest, hs, hr, -⟩ := is_normalized_path_cases h
      have hh := (split_path_head_root_iff p).2 hsep
      rw [hs] at hh
      simp only [List.head?_cons, Option.some.injEq] at hh
      rw [hh] at hr
      exact absurd hr (by decide)
  · intro hrel
    cases h : is_normalized_path rules p true with
    | false => rfl
    | true =>
      obtain ⟨-, first, rest, hs, hr, -⟩ := is_normalized_path_cases h
      have := hrel first (by rw [hs]; rfl)
      rw [is_root_strict_weaken hr] at this
      exact absurd this (by decide)
  · intro h
    obtain ⟨hv, first, rest, hs, hr, -⟩ := is_normalized_path_cases h
    obtain ⟨-, -, -, -, -, hnb⟩ := is_valid_path_cases hv
    have hh : (split_path p).head? = some ['/'] := by
      rw [hs, is_root_posix hr]; rfl
    obtain ⟨c, cs, rfl, hc⟩ := (split_path_head_root_iff p).1 hh
    rcases hc with rfl | rfl
    · exact ⟨cs, rfl⟩
    · exact absurd (List.mem_cons_self _ _) (hnb rfl)

/-- C15 at the paths `C:/a` (normalized under Windows), `/a` (starts with a separator), `a/b`
(relative) and, under POSIX, `/a`. -/
theorem C15_windows_requires_drive_witness :
    is_normalized_path portable_rules "C:/a".toList true = true ∧
    has_windows_drive ((split_path "C:/a".toList).headD []) = true ∧
    is_normalized_path portable_rules "/a".toList true = false ∧
    is_normalized_path portable_rules "a/b".toList true = false ∧
    is_normalized_path portable_rules "/a".toList false = true ∧
    "/a".toList.head? = some '/' := by
  refine ⟨by decide, ?_, ?_, ?_, by decide, ?_⟩
  · obtain ⟨first, rest, a, hs, hd, -, -⟩ :=
      (C15_windows_requires_drive portable_rules "C:/a".toList).1 (by decide)
    rw [hs]
    exact hd
  · exact (C15_windows_requires_drive portable_rules "/a".toList).2.1
      ⟨'/', "a".toList, by decide, by decide⟩
  · exact (C15_windows_requires_drive portable_rules "a/b".toList).2.2.1 (by decide)
  · obtain ⟨cs, hcs⟩ :=
      (C15_windows_requires_drive portable_rules "/a".toList).2.2.2 (by decide)
    rw [hcs]
    rfl

/-- C16: for a base obtained from a normalized path, a successful result `s` of
`normalize_path` contains no backslash and no two slashes in a row; it starts with the root
designator (`/` under POSIX, a drive marker and `/` under Windows) and ends with a slash only
when it is the root designator and its slash alone.  Under the Windows dialect the
filename-rule provider is assumed to reject the empty name, as
`boost::filesystem::windows_name` does. -/
theorem C16_output_format (rules : NameRules) (w : Bool) (q raw s : Str) (base : List Str)
    (hname : w = true → rules.windows_name [] = false)
    (hb : convert_to_internal_path rules q w = Except.ok base)
    (hx : normalize_path rules raw base = Except.ok (some s)) :
    backslash ∉ s ∧
    (¬ ∃ u v, s = u ++ '/' :: '/' :: v) ∧
    (w = false → ∃ t, s = '/' :: t ∧ (s.getLast? = some '/' → s = ['/'])) ∧
    (w = true → ∃ d t, has_windows_drive d = true ∧ s = d ++ '/' :: t ∧
      (s.getLast? = some '/' → s = d ++ ['/'])) := by
  obtain ⟨r0, keep, rfl, hroot, hkeep⟩ := normalize_path_some hb hx
  have hne : ∀ t ∈ keep, sep_free t ∧ t ≠ [] := by
    intro t ht
    refine ⟨(hkeep t ht).2.1, ?_⟩
    cases w with
    | false => exact (hkeep t ht).2.2.1 rfl
    | true =>
      rintro rfl
      have := (hkeep [] ht).1
      simp [name_ok, hname rfl] at this
  cases w with
  | false =>
    have e : serialize false (r0 :: keep) = [] ++ '/' :: join_slash keep := by
      simp [serialize]
    obtain ⟨i1, i2, i3⟩ := serialized_shape [] keep (fun c hc => by simp at hc) hne
    rw [e]
    refine ⟨i1, i2, fun _ => ⟨join_slash keep, rfl, fun hl => ?_⟩, fun h => by simp at h⟩
    rw [i3 hl]
    rfl
  | true =>
    have hd := is_root_windows_strict hroot
    have e : serialize true (r0 :: keep) = r0 ++ '/' :: join_slash keep := by
      simp [serialize]
    obtain ⟨i1, i2, i3⟩ := serialized_shape r0 keep (drive_sep_free hd).1 hne
    rw [e]
    refine ⟨i1, i2, fun h => by simp at h,
      fun _ => ⟨r0, join_slash keep, hd, rfl, fun hl => ?_⟩⟩
    rw [i3 hl]

/-- C16 at the base obtained from `Z:/data` and the raw string `a/./b/`. -/
theorem C16_output_format_witness :
    normalize_path portable_rules "a/./b/".toList (split_path "Z:/data".toList) =
      Except.ok (some "Z:/data/a/b".toList) ∧
    backslash ∉ "Z:/data/a/b".toList :=
  ⟨by decide,
    (C16_output_format portable_rules true "Z:/data".toList "a/./b/".toList
      "Z:/data/a/b".toList (split_path "Z:/data".toList) (fun _ => by decide) (by decide)
      (by decide)).1⟩

/-- C17: for a segment sequence with a strict root at index 0, the backward parent-counter
scan of `normalize` and the forward stack algorithm agree: the loop of `normalize` ends with
a zero counter exactly when the forward scan does not fail, its vector read backwards is then
the stack of the forward scan from bottom to top, and `normalize` returns the failure or the
serialization of the survivors of the forward scan. -/
theorem C17_backward_scan_equals_forward_stack (first : Str) (rest : List Str) (w : Bool)
    (hroot : is_root first w true = true) :
    (forward_stack rest [] =
      if (rest.reverse.foldl scan_step (0, [])).1 = 0 then
        some (rest.reverse.foldl scan_step (0, [])).2.reverse
      else none) ∧
    normalize (first :: rest) w =
      (match forward_stack rest [] with
      | none => Except.ok none
      | some keep => Except.ok (some (serialize w (first :: keep)))) := by
  constructor
  · rw [foldl_scan_step, forward_stack_nil]
    simp
  · rw [normalize_eq first rest w hroot, forward_stack_nil]
    by_cases h : (resolve_scan rest).1 = 0
    · simp [h]
    · simp [h]

/-- C17 at the segments `Z:`, `a`, `..`, `b`, `.`, `c`, `..`. -/
theorem C17_backward_scan_equals_forward_stack_witness :
    forward_stack ["a".toList, "..".toList, "b".toList, ".".toList, "c".toList, "..".toList]
      [] = some ["b".toList] ∧
    normalize ["Z:".toList, "a".toList, "..".toList, "b".toList, ".".toList, "c".toList,
      "..".toList] true = Except.ok (some "Z:/b".toList) := by
  have h := C17_backward_scan_equals_forward_stack "Z:".toList
    ["a".toList, "..".toList, "b".toList, ".".toList, "c".toList, "..".toList] true (by decide)
  refine ⟨by decide, ?_⟩
  rw [h.2]
  decide

/-- C18: a slash appended to `a\` (the letter `a` and a backslash) changes the result under
the Windows base `Z:/data`: the raw string gives `Z:/data/a`, while the extended string is
tokenized to `a` and an empty segment, which the filename rule rejects, so it gives no value.
The trailing slash is ignored for every non-empty raw string that does not end in a
backslash, under any base, and for every non-empty raw string under a POSIX base. -/
theorem C18_trailing_slash_after_backslash (rules : NameRules) (raw b0 : Str)
    (bs : List Str) :
    (normalize_path portable_rules ['a', backslash] ["Z:".toList, "data".toList] =
        Except.ok (some "Z:/data/a".toList) ∧
      split_path (['a', backslash] ++ ['/']) = [['a'], []] ∧
      normalize_path portable_rules (['a', backslash] ++ ['/'])
        ["Z:".toList, "data".toList] = Except.ok none) ∧
    (raw ≠ [] → raw.getLast? ≠ some backslash →
      normalize_path rules (raw ++ ['/']) (b0 :: bs) = normalize_path rules raw (b0 :: bs)) ∧
    (raw ≠ [] → is_root b0 (has_windows_drive b0) true = true →
      has_windows_drive b0 = false →
      normalize_path rules (raw ++ ['/']) (b0 :: bs) = normalize_path rules raw (b0 :: bs)) := by
  refine ⟨⟨by decide, by decide, by decide⟩, ?_, ?_⟩
  · intro hne hlast
    exact normalize_path_trailing rules (b0 :: bs) hne hlast
  · intro hne hroot hw
    by_cases hlast : raw.getLast? = some backslash
    · have hm : backslash ∈ raw := List.mem_of_getLast?_eq_some hlast
      rw [normalize_path_posix_backslash rules bs hroot hw hm,
        normalize_path_posix_backslash rules bs hroot hw (List.mem_append_left _ hm)]
    · exact normalize_path_trailing rules (b0 :: bs) hne hlast

/-- C18 at the base `Z:/data` and the raw string `a/b`, and at the base `/data` and the raw
string `a\`. -/
theorem C18_trailing_slash_after_backslash_witness :
    normalize_path portable_rules ("a/b".toList ++ ['/']) ["Z:".toList, "data".toList] =
      normalize_path portable_rules "a/b".toList ["Z:".toList, "data".toList] ∧
    normalize_path portable_rules (['a', backslash] ++ ['/']) ["/".toList, "data".toList] =
      normalize_path portable_rules ['a', backslash] ["/".toList, "data".toList] :=
  ⟨(C18_trailing_slash_after_backslash portable_rules "a/b".toList "Z:".toList
      ["data".toList]).2.1 (by decide) (by decide),
    (C18_trailing_slash_after_backslash portable_rules ['a', backslash] "/".toList
      ["data".toList]).2.2 (by decide) (by decide) (by decide)⟩

/-- C19: `is_root seg is_windows strict` holds exactly when `seg` is `/` and the check is not
strict or the dialect is not Windows, or the dialect is Windows and `seg` is one uppercase
letter followed by a colon; hence strictness does not change the answer for a drive marker, and
a strict root is a non-strict root. -/
theorem C19_root_classification (seg : Str) (w strict : Bool) :
    (is_root seg w strict = true ↔
      (seg = ['/'] ∧ (strict = false ∨ w = false)) ∨
      (w = true ∧ ∃ a : Char, a.isUpper = true ∧ seg = [a, ':'])) ∧
    (has_windows_drive seg = true → is_root seg w true = is_root seg w false) ∧
    (is_root seg w true = true → is_root seg w false = true) := by
  have hform : has_windows_drive seg = true ↔ ∃ a : Char, a.isUpper = true ∧ seg = [a, ':'] := by
    constructor
    · intro h
      obtain ⟨a, e, ha⟩ := has_windows_drive_form h
      exact ⟨a, ha, e⟩
    · rintro ⟨a, ha, rfl⟩
      simp [has_windows_drive, ha]
  refine ⟨?_, ?_, is_root_strict_weaken⟩
  · rw [← hform]
    cases w <;> cases strict <;> simp [is_root]
  · intro hd
    obtain ⟨a, rfl, -⟩ := has_windows_drive_form hd
    cases w <;> simp [is_root]

/-- C19 at the drive marker `C:` under the Windows dialect. -/
theorem C19_root_classification_witness :
    is_root "C:".toList true true = is_root "C:".toList true false ∧
    is_root "C:".toList true false = true :=
  ⟨(C19_root_classification "C:".toList true true).2.1 (by decide),
    (C19_root_classification "C:".toList true true).2.2 (by decide)⟩

/-- C20: for a base that meets the two assertions of `normalize_path` (it is not empty and
its element 0 is a strict root for the dialect derived from it) and for every raw string,
`normalize_path` stops at no assertion; on each of its three branches (drive substitution,
base prepended, sequence as it is) the sequence handed to `normalize` is not empty and starts
with a strict root, so `normalize` stops at no assertion either. -/
theorem C20_facade_assertions_hold (rules : NameRules) (raw b0 : Str) (bs : List Str)
    (hroot : is_root b0 (has_windows_drive b0) true = true) :
    (∃ r, normalize_path rules raw (b0 :: bs) = Except.ok r) ∧
    (∀ (first : Str) (rest : List Str), split_path raw = first :: rest →
      is_valid_path rules raw (has_windows_drive b0) = true →
      (is_root first (has_windows_drive b0) true = false →
        (has_windows_drive b0 && first == ['/']) = true →
        normalize_path rules raw (b0 :: bs) = normalize (b0 :: rest) (has_windows_drive b0) ∧
        ∃ r, normalize (b0 :: rest) (has_windows_drive b0) = Except.ok r) ∧
      (is_root first (has_windows_drive b0) true = false →
        (has_windows_drive b0 && first == ['/']) = false →
        normalize_path rules raw (b0 :: bs) =
          normalize (b0 :: bs ++ first :: rest) (has_windows_drive b0) ∧
        ∃ r, normalize (b0 :: bs ++ first :: rest) (has_windows_drive b0) = Except.ok r) ∧
      (is_root first (has_windows_drive b0) true = true →
        normalize_path rules raw (b0 :: bs) = normalize (first :: rest) (has_windows_drive b0) ∧
        ∃ r, normalize (first :: rest) (has_windows_drive b0) = Except.ok r)) := by
  have hok : ∀ (x : Str) (segs : List Str) (w : Bool), is_root x w true = true →
      ∃ r, normalize (x :: segs) w = Except.ok r := by
    intro x segs w hx
    rw [normalize_eq x segs w hx]
    split_ifs
    · exact ⟨_, rfl⟩
    · exact ⟨_, rfl⟩
  have hbr : ∀ (first : Str) (rest : List Str), split_path raw = first :: rest →
      is_valid_path rules raw (has_windows_drive b0) = true →
      (is_root first (has_windows_drive b0) true = false →
        (has_windows_drive b0 && first == ['/']) = true →
        normalize_path rules raw (b0 :: bs) = normalize (b0 :: rest) (has_windows_drive b0) ∧
        ∃ r, normalize (b0 :: rest) (has_windows_drive b0) = Except.ok r) ∧
      (is_root first (has_windows_drive b0) true = false →
        (has_windows_drive b0 && first == ['/']) = false →
        normalize_path rules raw (b0 :: bs) =
          normalize (b0 :: bs ++ first :: rest) (has_windows_drive b0) ∧
        ∃ r, normalize (b0 :: bs ++ first :: rest) (has_windows_drive b0) = Except.ok r) ∧
      (is_root first (has_windows_drive b0) true = true →
        normalize_path rules raw (b0 :: bs) = normalize (first :: rest) (has_windows_drive b0) ∧
        ∃ r, normalize (first :: rest) (has_windows_drive b0) = Except.ok r) := by
    intro first rest hs hv
    rw [normalize_path_eq rules raw b0 bs hroot, hs]
    refine ⟨?_, ?_, ?_⟩
    · intro hr hsub
      exact ⟨by simp [hv, hr, hsub], hok b0 rest _ hroot⟩
    · intro hr hsub
      exact ⟨by simp [hv, hr, hsub], hok b0 (bs ++ first :: rest) _ hroot⟩
    · intro hr
      exact ⟨by simp [hv, hr], hok first rest _ hr⟩
  refine ⟨?_, hbr⟩
  cases hs : split_path raw with
  | nil =>
    rw [normalize_path_eq rules raw b0 bs hroot, hs]
    exact ⟨_, rfl⟩
  | cons first rest =>
    by_cases hv : is_valid_path rules raw (has_windows_drive b0) = true
    · obtain ⟨h1, h2, h3⟩ := hbr first rest hs hv
      cases hr : is_root first (has_windows_drive b0) true with
      | true => rw [(h3 hr).1]; exact (h3 hr).2
      | false =>
        cases hsub : (has_windows_drive b0 && first == ['/']) with
        | true => rw [(h1 hr hsub).1]; exact (h1 hr hsub).2
        | false => rw [(h2 hr hsub).1]; exact (h2 hr hsub).2
    · rw [normalize_path_eq rules raw b0 bs hroot, hs]
      simp only [hv, Bool.false_eq_true, if_false]
      exact ⟨_, rfl⟩

/-- C20 at the base `Z:/data` and the raw string `/a` (drive substitution). -/
theorem C20_facade_assertions_hold_witness :
    normalize_path portable_rules "/a".toList ["Z:".toList, "data".toList] =
      normalize ["Z:".toList, "a".toList] (has_windows_drive "Z:".toList) :=
  (((C20_facade_assertions_hold portable_rules "/a".toList "Z:".toList ["data".toList]
    (by decide)).2 "/".toList ["a".toList] (by decide) (by decide)).1
    (by decide) (by decide)).1

/-- C21: for a base obtained from a normalized path with dialect `w`, every successful result
`s` of `normalize_path` is accepted by `is_normalized_path` for `w`: it is valid, its first
segment is a strict root, no segment is `.` or `..`, and `convert_to_internal_path` accepts it
and returns its segment sequence. -/
theorem C21_result_is_normalized (rules : NameRules) (w : Bool) (q raw s : Str)
    (base : List Str)
    (hb : convert_to_internal_path rules q w = Except.ok base)
    (hx : normalize_path rules raw base = Except.ok (some s)) :
    is_normalized_path rules s w = true ∧
    is_valid_path rules s w = true ∧
    (∃ first rest, split_path s = first :: rest ∧ is_root first w true = true ∧
      ∀ t ∈ first :: rest, t ≠ ['.'] ∧ t ≠ ['.', '.']) ∧
    convert_to_internal_path rules s w = Except.ok (split_path s) := by
  obtain ⟨r0, keep, rfl, hroot, hkeep⟩ := normalize_path_some hb hx
  have hs : split_path (serialize w (r0 :: keep)) = r0 :: keep.filter (fun t => t != []) :=
    split_path_serialize keep hroot (fun t ht => (hkeep t ht).2.1)
  have hn : is_normalized_path rules (serialize w (r0 :: keep)) w = true :=
    is_normalized_path_intro hs hroot
      (fun hw => by
        subst hw
        exact serialize_no_backslash keep (fun t ht => (hkeep t ht).2.1))
      (fun t ht =>
        ⟨(hkeep t (List.mem_of_mem_filter ht)).1, (hkeep t (List.mem_of_mem_filter ht)).2.2.2⟩)
  refine ⟨hn, (is_normalized_path_cases hn).1, ⟨r0, _, hs, hroot, ?_⟩, ?_⟩
  · intro t ht
    rcases List.mem_cons.1 ht with rfl | ht
    · exact root_not_dot hroot
    · exact (hkeep t (List.mem_of_mem_filter ht)).2.2.2
  · unfold convert_to_internal_path
    rw [hn]
    rfl

/-- C21 at the base obtained from `Z:/data` and the raw string `../x/./y`. -/
theorem C21_result_is_normalized_witness :
    normalize_path portable_rules "../x/./y".toList (split_path "Z:/data".toList) =
      Except.ok (some "Z:/x/y".toList) ∧
    is_normalized_path portable_rules "Z:/x/y".toList true = true :=
  ⟨by decide,
    (C21_result_is_normalized portable_rules true "Z:/data".toList "../x/./y".toList
      "Z:/x/y".toList (split_path "Z:/data".toList) (by decide) (by decide)).1⟩

/-- C22: for a path `p` accepted by `is_normalized_path` for the flag `w`,
`convert_to_internal_path` returns a non-empty sequence whose element 0 is a strict root for
`w`; the dialect that `normalize_path` derives from it (`has_windows_drive` of element 0) is
`w`, so both assertions at the start of `normalize_path` hold and, for every raw string,
`normalize_path` on this base stops at no assertion. -/
theorem C22_convert_gives_legal_base (rules : NameRules) (p : Str) (w : Bool)
    (hp : is_normalized_path rules p w = true) :
    ∃ b0 bs, convert_to_internal_path rules p w = Except.ok (b0 :: bs) ∧
      is_root b0 w true = true ∧
      has_windows_drive b0 = w ∧
      is_root b0 (has_windows_drive b0) true = true ∧
      ∀ raw, ∃ r, normalize_path rules raw (b0 :: bs) = Except.ok r := by
  obtain ⟨-, b0, bs, hs, hr, -⟩ := is_normalized_path_cases hp
  have hw := has_windows_drive_of_root hr
  have hr2 : is_root b0 (has_windows_drive b0) true = true := by rw [hw]; exact hr
  refine ⟨b0, bs, ?_, hr, hw, hr2, fun raw => normalize_path_ok rules raw b0 bs hr2⟩
  unfold convert_to_internal_path
  rw [hp, hs]
  rfl

/-- C22 at the path `Z:\data` under the Windows dialect, as in `main`. -/
theorem C22_convert_gives_legal_base_witness :
    is_normalized_path portable_rules ['Z', ':', backslash, 'd', 'a', 't', 'a'] true = true ∧
    convert_to_internal_path portable_rules ['Z', ':', backslash, 'd', 'a', 't', 'a'] true ≠
      Except.error Fault.assertion_failed := by
  refine ⟨by decide, ?_⟩
  obtain ⟨b0, bs, h, -⟩ := C22_convert_gives_legal_base portable_rules
    ['Z', ':', backslash, 'd', 'a', 't', 'a'] true (by decide)
  rw [h]
  exact fun e => by cases e

end NormalizePath
